import Mathlib

/-!
Verification of the diagram-extraction and region-merging subsystem of the
cbse-question-parser repository.

The embedded code comes from `src/logic/diagram_extraction.py`
(`extract_diagrams_from_pdf`, lines 41-129) and from `src/end_to_end.py`
(`extract_diagrams_from_pdf`, lines 204-304, and `log_diagram_snippets`,
lines 306-332).  Detector box coordinates (float tensors in the source) are
modelled as rationals; the Python `int()` conversion used for cropping is
modelled as truncation toward zero; the mutable `parents` array of the
union-find is modelled as a `List ℕ` threaded through the operations, and
the unbounded recursion of `find` is modelled with an explicit fuel that is
always instantiated with the array length (shown sufficient below).
-/

namespace DiagramExtraction

/-- A detected bounding box `(x1, y1, x2, y2)` in page-image pixel
coordinates, as produced by the detector (`det_res.boxes.xyxy`). -/
structure Box where
  x1 : ℚ
  y1 : ℚ
  x2 : ℚ
  y2 : ℚ
deriving DecidableEq, Inhabited

/-- One detection: bounding box, class id (`boxes.cls`, class 3 = figure)
and confidence score (`boxes.conf`). -/
structure Det where
  box : Box
  cls : ℕ
  score : ℚ
deriving DecidableEq, Inhabited

/-- Integer crop rectangle, the argument of `page.crop((int(x1_), int(y1_),
int(x2_), int(y2_)))`. -/
structure CropBox where
  x1 : ℤ
  y1 : ℤ
  x2 : ℤ
  y2 : ℤ
deriving DecidableEq, Inhabited

/-- Python `int()` on a rational: truncation toward zero. -/
def pyInt (q : ℚ) : ℤ :=
  if q < 0 then -((-q).floor) else q.floor

/-- The integer crop rectangle of a box, as built at
`diagram_extraction.py:121`. -/
def pyCrop (b : Box) : CropBox :=
  ⟨pyInt b.x1, pyInt b.y1, pyInt b.x2, pyInt b.y2⟩

/-! ### Union-find (`diagram_extraction.py:91-99`)

`parents` is the mutable list; `parentOf p i` is `parents[i]` (all accesses
in the source are in range; out-of-range reads default to `i` so that they
are fixpoints). -/

/-- Read `parents[i]`. -/
def parentOf (p : List ℕ) (i : ℕ) : ℕ := p.getD i i

/-- Python `find` with path compression (`diagram_extraction.py:92-95`):
`if parents[i] != i: parents[i] = find(parents[i]); return parents[i]`.
The fuel argument models the unbounded Python recursion; it is always
called with fuel `p.length`, which is proved sufficient. -/
def find : ℕ → List ℕ → ℕ → List ℕ × ℕ
  | 0, p, i => (p, i)
  | fuel + 1, p, i =>
    if parentOf p i = i then (p, i)
    else
      let r := find fuel p (parentOf p i)
      (r.1.set i r.2, r.2)

/-- Python `union` (`diagram_extraction.py:96-99`): `pi, pj = find(i), find(j);
if pi != pj: parents[pj] = pi`. -/
def union (p : List ℕ) (i j : ℕ) : List ℕ :=
  let fi := find p.length p i
  let fj := find fi.1.length fi.1 j
  if fi.2 ≠ fj.2 then fj.1.set fj.2 fi.2 else fj.1

/-- Pure (non-mutating) root chase, used as the semantic value of `find`. -/
def rootD : ℕ → List ℕ → ℕ → ℕ
  | 0, _, i => i
  | fuel + 1, p, i =>
    if parentOf p i = i then i else rootD fuel p (parentOf p i)

/-- The root of `i` in parents list `p`. -/
def root (p : List ℕ) (i : ℕ) : ℕ := rootD p.length p i

/-- Chain predicate `ChainUF p i l r`: starting from `i` and repeatedly following parents,
the (possibly empty) list of non-root nodes visited is `l` and the first
fixpoint reached is `r`. -/
inductive ChainUF (p : List ℕ) : ℕ → List ℕ → ℕ → Prop
  | fix (i : ℕ) (h : parentOf p i = i) : ChainUF p i [] i
  | step (i : ℕ) (l : List ℕ) (r : ℕ) (h : parentOf p i ≠ i)
      (tail : ChainUF p (parentOf p i) l r) : ChainUF p i (i :: l) r

/-- A node has a good chain: it reaches a root through pairwise-distinct
in-range nodes. -/
def GoodChain (p : List ℕ) (i : ℕ) : Prop :=
  ∃ l r, ChainUF p i l r ∧ l.Nodup ∧ (∀ x ∈ l, x < p.length) ∧ r < p.length

/-- Well-formedness of a parents list: every in-range node reaches a root. -/
def UFInv (p : List ℕ) : Prop :=
  ∀ i, i < p.length → GoodChain p i

theorem chain_fix {p : List ℕ} {i : ℕ} {l : List ℕ} {r : ℕ}
    (h : ChainUF p i l r) : parentOf p r = r := by
  induction h with
  | fix i h => exact h
  | step i l r h tail ih => exact ih

theorem chain_unique {p : List ℕ} {i : ℕ} {l l' : List ℕ} {r r' : ℕ}
    (h : ChainUF p i l r) (h' : ChainUF p i l' r') : l = l' ∧ r = r' := by
  induction h generalizing l' r' with
  | fix i h =>
    cases h' with
    | fix _ _ => exact ⟨rfl, rfl⟩
    | step _ _ _ hne _ => exact absurd h hne
  | step i l r hne tail ih =>
    cases h' with
    | fix _ hfix => exact absurd hfix hne
    | step _ l2 r2 _ tail2 =>
      obtain ⟨h1, h2⟩ := ih tail2
      exact ⟨by rw [h1], h2⟩

theorem chain_mem_ne {p : List ℕ} {i : ℕ} {l : List ℕ} {r : ℕ}
    (h : ChainUF p i l r) : ∀ x ∈ l, parentOf p x ≠ x := by
  induction h with
  | fix i h => intro x hx; cases hx
  | step i l r hne tail ih =>
    intro x hx
    rcases List.mem_cons.mp hx with rfl | hx
    · exact hne
    · exact ih x hx

theorem chain_root_not_mem {p : List ℕ} {i : ℕ} {l : List ℕ} {r : ℕ}
    (h : ChainUF p i l r) : r ∉ l := by
  intro hr
  exact chain_mem_ne h r hr (chain_fix h)

theorem chain_rootD {p : List ℕ} {i : ℕ} {l : List ℕ} {r : ℕ}
    (h : ChainUF p i l r) : ∀ fuel, l.length ≤ fuel → rootD fuel p i = r := by
  induction h with
  | fix i h =>
    intro fuel _
    cases fuel with
    | zero => rfl
    | succ f => simp [rootD, h]
  | step i l r hne tail ih =>
    intro fuel hf
    cases fuel with
    | zero => simp at hf
    | succ f =>
      have : l.length ≤ f := by
        have := hf
        simp only [List.length_cons] at this
        omega
      simp [rootD, hne, ih f this]

/-- A chain only reads `parentOf`; pointwise-equal parents give the same
chains. -/
theorem chain_congr {p q : List ℕ} (hpq : ∀ x, parentOf p x = parentOf q x)
    {i : ℕ} {l : List ℕ} {r : ℕ} (h : ChainUF p i l r) : ChainUF q i l r := by
  induction h with
  | fix i h => exact ChainUF.fix i ((hpq i) ▸ h)
  | step i l r hne tail ih =>
    exact ChainUF.step i l r ((hpq i) ▸ hne) ((hpq i) ▸ ih)

theorem nodup_lt_length_le {l : List ℕ} {n : ℕ} (hn : l.Nodup)
    (hlt : ∀ x ∈ l, x < n) : l.length ≤ n := by
  classical
  have hsub : l.toFinset ⊆ Finset.range n := by
    intro x hx
    rw [List.mem_toFinset] at hx
    exact Finset.mem_range.mpr (hlt x hx)
  have hcard := Finset.card_le_card hsub
  rwa [List.toFinset_card_of_nodup hn, Finset.card_range] at hcard

/-- Under the invariant, the root is computed by `rootD` with fuel
`p.length`. -/
theorem root_eq_of_chain {p : List ℕ} {i : ℕ} {l : List ℕ} {r : ℕ}
    (h : ChainUF p i l r) (hnd : l.Nodup) (hlt : ∀ x ∈ l, x < p.length) :
    root p i = r :=
  chain_rootD h p.length (nodup_lt_length_le hnd hlt)

theorem goodchain_root {p : List ℕ} {i : ℕ} (h : GoodChain p i) :
    ∃ l, ChainUF p i l (root p i) ∧ l.Nodup ∧ (∀ x ∈ l, x < p.length) ∧
      root p i < p.length := by
  obtain ⟨l, r, hc, hnd, hlt, hr⟩ := h
  have := root_eq_of_chain hc hnd hlt
  exact ⟨l, this ▸ hc, hnd, hlt, this ▸ hr⟩

theorem root_lt {p : List ℕ} (hinv : UFInv p) {i : ℕ} (hi : i < p.length) :
    root p i < p.length := by
  obtain ⟨l, hc, hnd, hlt, hr⟩ := goodchain_root (hinv i hi)
  exact hr

theorem parentOf_root {p : List ℕ} (hinv : UFInv p) {i : ℕ}
    (hi : i < p.length) : parentOf p (root p i) = root p i := by
  obtain ⟨l, hc, hnd, hlt, hr⟩ := goodchain_root (hinv i hi)
  exact chain_fix hc

theorem parentOf_set_ne {p : List ℕ} {i v x : ℕ} (h : x ≠ i) :
    parentOf (p.set i v) x = parentOf p x := by
  unfold parentOf
  rw [List.getD_eq_getElem?_getD, List.getD_eq_getElem?_getD,
    List.getElem?_set_ne (Ne.symm h)]

theorem parentOf_set_self {p : List ℕ} {i v : ℕ} (h : i < p.length) :
    parentOf (p.set i v) i = v := by
  simp [parentOf, List.getD_eq_getElem?_getD, List.getElem?_set, h]

theorem rootD_congr {p q : List ℕ} (hpq : ∀ y, parentOf p y = parentOf q y) :
    ∀ fuel x, rootD fuel p x = rootD fuel q x := by
  intro fuel
  induction fuel with
  | zero => intro x; rfl
  | succ f ih =>
    intro x
    simp only [rootD, hpq x]
    by_cases hx : parentOf q x = x
    · simp [hx]
    · simp [hx, hpq x, ih]

theorem chain_head {p : List ℕ} {z : ℕ} {l : List ℕ} {r : ℕ}
    (h : ChainUF p z l r) : (l = [] ∧ z = r) ∨ ∃ lt, l = z :: lt := by
  cases h with
  | fix _ _ => exact Or.inl ⟨rfl, rfl⟩
  | step _ lt _ _ _ => exact Or.inr ⟨lt, rfl⟩

/-- Setting `parents[i]` to the root of `i` (path compression) transforms
every chain into a chain with the same root, whose nodes come from the old
chain plus possibly `i`. -/
theorem chain_set_root {p : List ℕ} {i : ℕ} {li : List ℕ} {r : ℕ}
    (hi : i < p.length) (hci : ChainUF p i li r) (hir : parentOf p i ≠ i) :
    ∀ {x l rx}, ChainUF p x l rx → l.Nodup →
      ∃ l', ChainUF (p.set i r) x l' rx ∧ l'.Nodup ∧
        ∀ y ∈ l', y ∈ l ∨ y = i := by
  have hrfix : parentOf p r = r := chain_fix hci
  have hri : r ≠ i := fun h => hir (h ▸ hrfix)
  intro x l rx hc
  induction hc with
  | fix x hx =>
    intro _
    have hxi : x ≠ i := fun h => hir (h ▸ hx)
    refine ⟨[], ChainUF.fix x ?_, List.nodup_nil, fun y hy => absurd hy (by simp)⟩
    rw [parentOf_set_ne hxi]; exact hx
  | step x l rx hne tail ih =>
    intro hnd
    have hndl : l.Nodup := (List.nodup_cons.mp hnd).2
    by_cases hxi : x = i
    · subst hxi
      obtain ⟨-, hrx⟩ := chain_unique (ChainUF.step x l rx hne tail) hci
      subst hrx
      refine ⟨[x], ?_, List.nodup_singleton x, fun y hy => Or.inr (by simpa using hy)⟩
      refine ChainUF.step x [] rx ?_ ?_
      · rw [parentOf_set_self hi]; exact hri
      · rw [parentOf_set_self hi]
        exact ChainUF.fix rx (by rw [parentOf_set_ne hri]; exact hrfix)
    · have hpx : parentOf (p.set i r) x = parentOf p x := parentOf_set_ne hxi
      obtain ⟨l2, hc2, hnd2, hsub2⟩ := ih hndl
      refine ⟨x :: l2, ?_, ?_, ?_⟩
      · refine ChainUF.step x l2 rx ?_ ?_
        · rw [hpx]; exact hne
        · rw [hpx]; exact hc2
      · refine List.nodup_cons.mpr ⟨?_, hnd2⟩
        intro hxl2
        rcases hsub2 x hxl2 with h | h
        · exact (List.nodup_cons.mp hnd).1 h
        · exact hxi h
      · intro y hy
        rcases List.mem_cons.mp hy with rfl | hy
        · exact Or.inl (List.mem_cons_self y l)
        · rcases hsub2 y hy with h | h
          · exact Or.inl (List.mem_cons_of_mem x h)
          · exact Or.inr h

/-- Path compression: setting `parents[i]` to the root of `i` preserves the
invariant and the root function. -/
theorem set_root_preserve {p : List ℕ} (hinv : UFInv p) {i : ℕ}
    (hi : i < p.length) :
    UFInv (p.set i (root p i)) ∧ (p.set i (root p i)).length = p.length ∧
      ∀ x, x < p.length → root (p.set i (root p i)) x = root p x := by
  set q := p.set i (root p i) with hq
  have hqlen : q.length = p.length := List.length_set p i (root p i)
  by_cases hfix : parentOf p i = i
  · have hroot : root p i = i :=
      root_eq_of_chain (ChainUF.fix i hfix) List.nodup_nil (by simp)
    have hpq : ∀ y, parentOf p y = parentOf q y := by
      intro y
      by_cases hyi : y = i
      · subst hyi
        rw [hq, hroot, parentOf_set_self hi, hfix]
      · rw [hq, parentOf_set_ne hyi]
    refine ⟨?_, hqlen, ?_⟩
    · intro x hx
      obtain ⟨l, rx, hc, hnd, hlt, hr⟩ := hinv x (hqlen ▸ hx)
      exact ⟨l, rx, chain_congr hpq hc, hnd, fun y hy => hqlen ▸ hlt y hy, hqlen ▸ hr⟩
    · intro x hx
      unfold root
      rw [hqlen, rootD_congr hpq]
  · obtain ⟨li, hci, hndi, hlti, hrleni⟩ := goodchain_root (hinv i hi)
    refine ⟨?_, hqlen, ?_⟩
    · intro x hx
      obtain ⟨l, rx, hc, hnd, hlt, hr⟩ := hinv x (hqlen ▸ hx)
      obtain ⟨l', hc', hnd', hsub'⟩ := chain_set_root hi hci hfix hc hnd
      refine ⟨l', rx, hc', hnd', ?_, hqlen ▸ hr⟩
      intro y hy
      rcases hsub' y hy with h | h
      · exact hqlen ▸ hlt y h
      · exact hqlen ▸ (h ▸ hi)
    · intro x hx
      obtain ⟨l, hc, hnd, hlt, hr⟩ := goodchain_root (hinv x hx)
      obtain ⟨l', hc', hnd', hsub'⟩ := chain_set_root hi hci hfix hc hnd
      refine root_eq_of_chain hc' hnd' ?_
      intro y hy
      rcases hsub' y hy with h | h
      · exact hqlen ▸ hlt y h
      · exact hqlen ▸ (h ▸ hi)

/-- Linking root `rj` under root `ri` transforms every chain: classes with
root `rj` get root `ri`, all other classes are untouched. -/
theorem chain_reroot {p : List ℕ} {ri rj : ℕ} (hri : parentOf p ri = ri)
    (hrj : parentOf p rj = rj) (hne : ri ≠ rj) (hjlt : rj < p.length) :
    ∀ {x l rx}, ChainUF p x l rx → l.Nodup →
      ∃ l', ChainUF (p.set rj ri) x l' (if rx = rj then ri else rx) ∧
        l'.Nodup ∧ ∀ y ∈ l', y ∈ l ∨ y = rj := by
  intro x l rx hc
  induction hc with
  | fix x hx =>
    intro _
    by_cases hxj : x = rj
    · subst hxj
      refine ⟨[x], ?_, List.nodup_singleton x, fun y hy => Or.inr (by simpa using hy)⟩
      simp only [if_pos rfl]
      refine ChainUF.step x [] ri ?_ ?_
      · rw [parentOf_set_self hjlt]; exact fun h => hne (h.symm ▸ rfl)
      · rw [parentOf_set_self hjlt]
        exact ChainUF.fix ri (by rw [parentOf_set_ne hne]; exact hri)
    · refine ⟨[], ?_, List.nodup_nil, fun y hy => absurd hy (by simp)⟩
      rw [if_neg hxj]
      exact ChainUF.fix x (by rw [parentOf_set_ne hxj]; exact hx)
  | step x l rx hnex tail ih =>
    intro hnd
    have hndl : l.Nodup := (List.nodup_cons.mp hnd).2
    have hxj : x ≠ rj := fun h => hnex (h ▸ hrj)
    have hpx : parentOf (p.set rj ri) x = parentOf p x := parentOf_set_ne hxj
    obtain ⟨l2, hc2, hnd2, hsub2⟩ := ih hndl
    refine ⟨x :: l2, ?_, ?_, ?_⟩
    · refine ChainUF.step x l2 _ ?_ ?_
      · rw [hpx]; exact hnex
      · rw [hpx]; exact hc2
    · refine List.nodup_cons.mpr ⟨?_, hnd2⟩
      intro hxl2
      rcases hsub2 x hxl2 with h | h
      · exact (List.nodup_cons.mp hnd).1 h
      · exact hxj h
    · intro y hy
      rcases List.mem_cons.mp hy with rfl | hy
      · exact Or.inl (List.mem_cons_self y l)
      · rcases hsub2 y hy with h | h
        · exact Or.inl (List.mem_cons_of_mem x h)
        · exact Or.inr h

/-- Writing `parents[pj] = pi` on two distinct roots: invariant preserved, classes
with root `pj` are moved under `pi`. -/
theorem set_union_preserve {p : List ℕ} (hinv : UFInv p) {ri rj : ℕ}
    (hri : parentOf p ri = ri) (hrj : parentOf p rj = rj) (hne : ri ≠ rj)
    (hilt : ri < p.length) (hjlt : rj < p.length) :
    UFInv (p.set rj ri) ∧ (p.set rj ri).length = p.length ∧
      ∀ x, x < p.length →
        root (p.set rj ri) x = if root p x = rj then ri else root p x := by
  have hqlen : (p.set rj ri).length = p.length := List.length_set p rj ri
  have key : ∀ x, x < p.length →
      ∃ l', ChainUF (p.set rj ri) x l' (if root p x = rj then ri else root p x) ∧
        l'.Nodup ∧ (∀ y ∈ l', y < p.length) := by
    intro x hx
    obtain ⟨l, hc, hnd, hlt, hr⟩ := goodchain_root (hinv x hx)
    obtain ⟨l', hc', hnd', hsub'⟩ := chain_reroot hri hrj hne hjlt hc hnd
    refine ⟨l', hc', hnd', ?_⟩
    intro y hy
    rcases hsub' y hy with h | h
    · exact hlt y h
    · exact h ▸ hjlt
  refine ⟨?_, hqlen, ?_⟩
  · intro x hx
    obtain ⟨l', hc', hnd', hlt'⟩ := key x (hqlen ▸ hx)
    refine ⟨l', _, hc', hnd', fun y hy => hqlen ▸ hlt' y hy, hqlen ▸ ?_⟩
    by_cases hroot : root p x = rj
    · simp [hroot, hilt]
    · simp only [hroot, if_false]
      exact root_lt hinv (hqlen ▸ hx)
  · intro x hx
    obtain ⟨l', hc', hnd', hlt'⟩ := key x hx
    exact root_eq_of_chain hc' hnd' (fun y hy => hqlen ▸ hlt' y hy)

/-- Full specification of `find`: it returns the root of its argument, keeps
the parents list well-formed and of the same length, and does not change the
root of any node. -/
theorem find_spec {p : List ℕ} (hinv : UFInv p) :
    ∀ {x l rx}, ChainUF p x l rx → l.Nodup →
      (∀ y ∈ l, y < p.length) → x < p.length → rx < p.length →
      ∀ fuel, l.length ≤ fuel →
        (find fuel p x).2 = rx ∧
        (find fuel p x).1.length = p.length ∧
        UFInv (find fuel p x).1 ∧
        (∀ y, y < p.length → root (find fuel p x).1 y = root p y) := by
  intro x l rx hc
  induction hc with
  | fix x hx =>
    intro _ _ _ _ fuel _
    have hroot : find fuel p x = (p, x) := by
      cases fuel with
      | zero => rfl
      | succ f => simp [find, hx]
    rw [hroot]
    exact ⟨rfl, rfl, hinv, fun y _ => rfl⟩
  | step x l rx hne tail ih =>
    intro hnd hlt hx hrx fuel hf
    cases fuel with
    | zero => simp at hf
    | succ f =>
      have hparent_lt : parentOf p x < p.length := by
        rcases chain_head tail with ⟨-, hpr⟩ | ⟨lt, hlt'⟩
        · exact hpr ▸ hrx
        · refine hlt (parentOf p x) ?_
          rw [hlt']
          exact List.mem_cons_of_mem x (List.mem_cons_self _ _)
      have hndl : l.Nodup := (List.nodup_cons.mp hnd).2
      have hltl : ∀ y ∈ l, y < p.length :=
        fun y hy => hlt y (List.mem_cons_of_mem x hy)
      have hflen : l.length ≤ f := by
        have := hf
        simp only [List.length_cons] at this
        omega
      obtain ⟨e1, e2, e3, e4⟩ := ih hndl hltl hparent_lt hrx f hflen
      have hres : find (f + 1) p x =
          ((find f p (parentOf p x)).1.set x (find f p (parentOf p x)).2,
            (find f p (parentOf p x)).2) := by
        simp [find, hne]
      set P := find f p (parentOf p x) with hP
      have hrootpx : root p x = rx :=
        root_eq_of_chain (ChainUF.step x l rx hne tail) hnd hlt
      have hP2 : P.2 = root P.1 x := by
        rw [e1, e4 x hx, hrootpx]
      rw [hres]
      have hxP : x < P.1.length := e2 ▸ hx
      obtain ⟨g1, g2, g3⟩ := set_root_preserve e3 hxP
      refine ⟨e1, ?_, ?_, ?_⟩
      · simp only [hP2]
        rw [g2, e2]
      · simp only [hP2]
        exact g1
      · intro y hy
        simp only [hP2]
        rw [g3 y (e2 ▸ hy), e4 y hy]

/-- Calling `find` with fuel `p.length` on a well-formed parents list. -/
theorem find_full {p : List ℕ} (hinv : UFInv p) {x : ℕ} (hx : x < p.length) :
    (find p.length p x).2 = root p x ∧
    (find p.length p x).1.length = p.length ∧
    UFInv (find p.length p x).1 ∧
    (∀ y, y < p.length → root (find p.length p x).1 y = root p y) := by
  obtain ⟨l, hc, hnd, hlt, hr⟩ := goodchain_root (hinv x hx)
  exact find_spec hinv hc hnd hlt hx hr p.length (nodup_lt_length_le hnd hlt)

/-- Full specification of `union`: the class of `j` is merged into the class
of `i`, all other classes are unchanged, and the invariant is preserved. -/
theorem union_spec {p : List ℕ} (hinv : UFInv p) {i j : ℕ}
    (hi : i < p.length) (hj : j < p.length) :
    (union p i j).length = p.length ∧ UFInv (union p i j) ∧
      ∀ x, x < p.length →
        root (union p i j) x =
          if root p x = root p j then root p i else root p x := by
  obtain ⟨a1, a2, a3, a4⟩ := find_full hinv hi
  set p1 := (find p.length p i).1 with hp1
  set ri := (find p.length p i).2 with hri
  have hjp1 : j < p1.length := a2 ▸ hj
  obtain ⟨b1, b2, b3, b4⟩ := find_full a3 hjp1
  have hbfuel : find p1.length p1 j = find (find p.length p i).1.length p1 j := rfl
  set p2 := (find p1.length p1 j).1 with hp2
  set rj := (find p1.length p1 j).2 with hrj
  have hrieq : ri = root p i := a1
  have hrjeq : rj = root p j := by
    rw [b1]
    exact a4 j hj
  have hp2len : p2.length = p.length := by rw [hp2, b2, a2]
  have hroots2 : ∀ y, y < p.length → root p2 y = root p y := by
    intro y hy
    rw [hp2, b4 y (a2 ▸ hy), a4 y hy]
  have hunion : union p i j = if ri ≠ rj then p2.set rj ri else p2 := rfl
  by_cases hne : ri = rj
  · rw [hunion, if_neg (by simpa using hne)]
    refine ⟨hp2len, b3, ?_⟩
    intro x hx
    by_cases hxr : root p x = root p j
    · rw [hroots2 x hx, if_pos hxr, hxr, ← hrjeq, ← hne, hrieq]
    · rw [hroots2 x hx, if_neg hxr]
  · rw [hunion, if_pos (by simpa using hne)]
    have hrilt : ri < p2.length := by
      rw [hp2len, hrieq]; exact root_lt hinv hi
    have hrjlt : rj < p2.length := by
      rw [hp2len, hrjeq]; exact root_lt hinv hj
    have hrifix : parentOf p2 ri = ri := by
      have : root p2 i = ri := by rw [hroots2 i hi, hrieq]
      rw [← this]
      exact parentOf_root b3 (hp2len ▸ hi)
    have hrjfix : parentOf p2 rj = rj := by
      have : root p2 j = rj := by rw [hroots2 j hj, hrjeq]
      rw [← this]
      exact parentOf_root b3 (hp2len ▸ hj)
    obtain ⟨c1, c2, c3⟩ := set_union_preserve b3 hrifix hrjfix hne hrilt hrjlt
    refine ⟨by rw [c2, hp2len], c1, ?_⟩
    intro x hx
    rw [c3 x (hp2len ▸ hx), hroots2 x hx, hrjeq, hrieq]

/-! ### The pairwise-overlap loop (`diagram_extraction.py:100-106`) -/

/-- The strict vertical-overlap test of `diagram_extraction.py:105`:
`y1_i < y2_j and y1_j < y2_i`. -/
def vOverlapB (a b : Box) : Bool :=
  decide (a.y1 < b.y2) && decide (b.y1 < a.y2)

theorem vOverlapB_symm (a b : Box) : vOverlapB a b = vOverlapB b a :=
  Bool.and_comm _ _

/-- The ordered pairs visited by the double loop
`for i1 in range(n): for j1 in range(i1 + 1, n)`. -/
def pairList (n : ℕ) : List (ℕ × ℕ) :=
  (List.range n).flatMap fun i =>
    (List.range' (i + 1) (n - (i + 1))).map fun j => (i, j)

theorem mem_pairList {n i j : ℕ} :
    (i, j) ∈ pairList n ↔ i < j ∧ j < n := by
  unfold pairList
  rw [List.mem_flatMap]
  constructor
  · rintro ⟨a, ha, hmem⟩
    rw [List.mem_map] at hmem
    obtain ⟨b, hb, heq⟩ := hmem
    obtain ⟨rfl, rfl⟩ : a = i ∧ b = j := by
      have h1 := congrArg Prod.fst heq
      have h2 := congrArg Prod.snd heq
      exact ⟨h1, h2⟩
    rw [List.mem_range] at ha
    rw [List.mem_range'_1] at hb
    omega
  · rintro ⟨hij, hjn⟩
    refine ⟨i, List.mem_range.mpr (lt_trans hij hjn), List.mem_map.mpr ⟨j, ?_, rfl⟩⟩
    rw [List.mem_range'_1]
    omega

/-- The symmetric relation generated by a list of processed pairs. -/
def relOf (acc : List (ℕ × ℕ)) (a b : ℕ) : Prop :=
  (a, b) ∈ acc ∨ (b, a) ∈ acc

theorem eqvGen_relOf_nil {a b : ℕ} :
    Relation.EqvGen (relOf []) a b ↔ a = b := by
  constructor
  · intro h
    induction h with
    | rel x y h => rcases h with h | h <;> cases h
    | refl x => rfl
    | symm x y _ ih => exact ih.symm
    | trans x y z _ _ ih1 ih2 => exact ih1.trans ih2
  · rintro rfl
    exact Relation.EqvGen.refl a

theorem parentOf_range (n x : ℕ) : parentOf (List.range n) x = x := by
  unfold parentOf
  rw [List.getD_eq_getElem?_getD]
  by_cases hx : x < n
  · rw [List.getElem?_range hx]; rfl
  · rw [List.getElem?_eq_none]
    · rfl
    · rw [List.length_range]; omega

theorem ufinv_range (n : ℕ) : UFInv (List.range n) := by
  intro i hi
  rw [List.length_range] at hi
  refine ⟨[], i, ChainUF.fix i (parentOf_range n i), List.nodup_nil, ?_, ?_⟩
  · intro x hx; cases hx
  · rw [List.length_range]; exact hi

theorem root_range (n x : ℕ) : root (List.range n) x = x :=
  root_eq_of_chain (ChainUF.fix x (parentOf_range n x)) List.nodup_nil
    (fun y hy => absurd hy (by simp))

/-- Folding `union` over a list of in-range pairs computes exactly the
equivalence closure of the accumulated symmetric pair relation. -/
theorem foldl_union_spec {n : ℕ} :
    ∀ (qs acc : List (ℕ × ℕ)) (p : List ℕ),
      p.length = n → UFInv p →
      (∀ pr ∈ qs, pr.1 < n ∧ pr.2 < n) →
      (∀ pr ∈ acc, pr.1 < n ∧ pr.2 < n) →
      (∀ x y, x < n → y < n →
        (root p x = root p y ↔ Relation.EqvGen (relOf acc) x y)) →
      (qs.foldl (fun st pr => union st pr.1 pr.2) p).length = n ∧
      UFInv (qs.foldl (fun st pr => union st pr.1 pr.2) p) ∧
      ∀ x y, x < n → y < n →
        (root (qs.foldl (fun st pr => union st pr.1 pr.2) p) x =
          root (qs.foldl (fun st pr => union st pr.1 pr.2) p) y ↔
          Relation.EqvGen (relOf (acc ++ qs)) x y) := by
  intro qs
  induction qs with
  | nil =>
    intro acc p hlen hinv _ hacc hbase
    simpa using ⟨hlen, hinv, hbase⟩
  | cons pr qs ih =>
    intro acc p hlen hinv hqs hacc hbase
    obtain ⟨i, j⟩ := pr
    have hi : i < n := (hqs (i, j) (List.mem_cons_self _ _)).1
    have hj : j < n := (hqs (i, j) (List.mem_cons_self _ _)).2
    have hip : i < p.length := hlen ▸ hi
    have hjp : j < p.length := hlen ▸ hj
    obtain ⟨u1, u2, u3⟩ := union_spec hinv hip hjp
    have hlen1 : (union p i j).length = n := by rw [u1, hlen]
    have hroots1 : ∀ x, x < n →
        root (union p i j) x =
          if root p x = root p j then root p i else root p x := by
      intro x hx
      exact u3 x (hlen ▸ hx)
    have hnew : ∀ x y, x < n → y < n →
        (root (union p i j) x = root (union p i j) y ↔
          Relation.EqvGen (relOf (acc ++ [(i, j)])) x y) := by
      intro x y hx hy
      rw [hroots1 x hx, hroots1 y hy]
      have hmono : ∀ a b, relOf acc a b → relOf (acc ++ [(i, j)]) a b := by
        intro a b hab
        rcases hab with h | h
        · exact Or.inl (List.mem_append_left _ h)
        · exact Or.inr (List.mem_append_left _ h)
      have hedge : Relation.EqvGen (relOf (acc ++ [(i, j)])) i j :=
        Relation.EqvGen.rel i j (Or.inl (List.mem_append_right _ (by simp)))
      constructor
      · intro heq
        by_cases hx1 : root p x = root p j <;> by_cases hy1 : root p y = root p j
        · have hxj : Relation.EqvGen (relOf acc) x j :=
            (hbase x j hx hj).mp hx1
          have hyj : Relation.EqvGen (relOf acc) y j :=
            (hbase y j hy hj).mp hy1
          exact Relation.EqvGen.trans x j y (hxj.mono hmono)
            (Relation.EqvGen.symm y j (hyj.mono hmono))
        · rw [if_pos hx1, if_neg hy1] at heq
          have hxj : Relation.EqvGen (relOf acc) x j :=
            (hbase x j hx hj).mp hx1
          have hiy : Relation.EqvGen (relOf acc) i y :=
            (hbase i y hi hy).mp heq
          refine Relation.EqvGen.trans x j y (hxj.mono hmono) ?_
          exact Relation.EqvGen.trans j i y
            (Relation.EqvGen.symm i j hedge) (hiy.mono hmono)
        · rw [if_neg hx1, if_pos hy1] at heq
          have hyj : Relation.EqvGen (relOf acc) y j :=
            (hbase y j hy hj).mp hy1
          have hix : Relation.EqvGen (relOf acc) i x :=
            (hbase i x hi hx).mp heq.symm
          refine Relation.EqvGen.symm y x ?_
          refine Relation.EqvGen.trans y j x (hyj.mono hmono) ?_
          exact Relation.EqvGen.trans j i x
            (Relation.EqvGen.symm i j hedge) (hix.mono hmono)
        · rw [if_neg hx1, if_neg hy1] at heq
          exact ((hbase x y hx hy).mp heq).mono hmono
      · intro heqv
        have general : ∀ a b, Relation.EqvGen (relOf (acc ++ [(i, j)])) a b →
            (if root p a = root p j then root p i else root p a) =
            (if root p b = root p j then root p i else root p b) := by
          intro a b hab
          induction hab with
          | rel a b h =>
            have hcase : relOf acc a b ∨ ((a, b) = (i, j) ∨ (b, a) = (i, j)) := by
              rcases h with h | h
              · rcases List.mem_append.mp h with h | h
                · exact Or.inl (Or.inl h)
                · exact Or.inr (Or.inl (by simpa using h))
              · rcases List.mem_append.mp h with h | h
                · exact Or.inl (Or.inr h)
                · exact Or.inr (Or.inr (by simpa using h))
            rcases hcase with h | h
            · have han : a < n := by
                rcases h with h | h
                · exact (hacc _ h).1
                · exact (hacc _ h).2
              have hbn : b < n := by
                rcases h with h | h
                · exact (hacc _ h).2
                · exact (hacc _ h).1
              have : root p a = root p b :=
                (hbase a b han hbn).mpr (Relation.EqvGen.rel a b h)
              rw [this]
            · rcases h with h | h
              · have ha2 : a = i := congrArg Prod.fst h
                have hb2 : b = j := congrArg Prod.snd h
                subst ha2; subst hb2
                by_cases hij : root p a = root p b
                · rw [hij]
                · rw [if_neg hij, if_pos rfl]
              · have ha2 : b = i := congrArg Prod.fst h
                have hb2 : a = j := congrArg Prod.snd h
                subst ha2; subst hb2
                by_cases hij : root p b = root p a
                · rw [hij]
                · rw [if_pos rfl, if_neg hij]
          | refl a => rfl
          | symm a b _ ih => exact ih.symm
          | trans a b c _ _ ih1 ih2 => exact ih1.trans ih2
        exact general x y heqv
    have hacc1 : ∀ pr ∈ acc ++ [(i, j)], pr.1 < n ∧ pr.2 < n := by
      intro pr hpr
      rcases List.mem_append.mp hpr with h | h
      · exact hacc pr h
      · have : pr = (i, j) := by simpa using h
        rw [this]
        exact ⟨hi, hj⟩
    have hqs1 : ∀ pr ∈ qs, pr.1 < n ∧ pr.2 < n :=
      fun pr hpr => hqs pr (List.mem_cons_of_mem _ hpr)
    have := ih (acc ++ [(i, j)]) (union p i j) hlen1 u2 hqs1 hacc1 hnew
    simpa [List.append_assoc] using this


/-! ### Grouping by root (`diagram_extraction.py:107-111`) -/

/-- Python `groups[root].append(idx)` on an association list in insertion order,
modelling the Python `defaultdict(list)` (dict iteration order is insertion
order). -/
def addToGroups : List (ℕ × List ℕ) → ℕ → ℕ → List (ℕ × List ℕ)
  | [], r, idx => [(r, [idx])]
  | (k, g) :: rest, r, idx =>
    if k = r then (k, g ++ [idx]) :: rest
    else (k, g) :: addToGroups rest r idx

/-- The loop `for idx in range(n): groups[find(idx)].append(idx)`, threading
the mutable parents list through the `find` calls. -/
def groupFold (p : List ℕ) : List ℕ × List (ℕ × List ℕ) :=
  (List.range p.length).foldl
    (fun st idx =>
      ((find st.1.length st.1 idx).1,
        addToGroups st.2 (find st.1.length st.1 idx).2 idx))
    (p, [])

/-- The parents list after the pairwise-overlap double loop
(`diagram_extraction.py:91-106`), starting from `parents = list(range(n))`. -/
def finalParents (fb : List Box) : List ℕ :=
  (pairList fb.length).foldl
    (fun p pr =>
      if vOverlapB (fb.getD pr.1 default) (fb.getD pr.2 default) then
        union p pr.1 pr.2
      else p)
    (List.range fb.length)

/-- The Merge Groups of a page: `groups.values()` in insertion order. -/
def mergeGroups (fb : List Box) : List (List ℕ) :=
  (groupFold (finalParents fb)).2.map Prod.snd

/-! ### Union bounding box, crop, sort (`diagram_extraction.py:113-125`) -/

/-- Python `min` of a nonempty list (the empty case never occurs). -/
def listMinQ : List ℚ → ℚ
  | [] => 0
  | x :: xs => xs.foldl min x

/-- Python `max` of a nonempty list (the empty case never occurs). -/
def listMaxQ : List ℚ → ℚ
  | [] => 0
  | x :: xs => xs.foldl max x

/-- The union bounding box of a group (`x1_ = min(xs1); y1_ = min(ys1);
x2_ = max(xs2); y2_ = max(ys2)` at `diagram_extraction.py:115-120`). -/
def groupBox (fb : List Box) (g : List ℕ) : Box :=
  ⟨listMinQ (g.map fun i => (fb.getD i default).x1),
   listMinQ (g.map fun i => (fb.getD i default).y1),
   listMaxQ (g.map fun i => (fb.getD i default).x2),
   listMaxQ (g.map fun i => (fb.getD i default).y2)⟩

/-- Stable insertion into a sorted list (element goes before the first
entry it compares `le` to). -/
def insertLe {α : Type} (le : α → α → Bool) (a : α) : List α → List α
  | [] => [a]
  | b :: bs => if le a b then a :: b :: bs else b :: insertLe le a bs

/-- Stable sort, modelling Python `list.sort` (a stable sort). -/
def sortLe {α : Type} (le : α → α → Bool) (l : List α) : List α :=
  l.foldr (insertLe le) []

/-- The Figure Region Merger on one page's figure-class boxes
(`diagram_extraction.py:88-127`).  Each output entry keeps the sort key
`y1_`, the exact union box `(x1_, y1_, x2_, y2_)` and the integer crop
rectangle passed to `page.crop`; output is sorted by `y1_`
(`merged.sort(key=lambda x: x[0])`). -/
def mergeFigs (fb : List Box) : List (ℚ × Box × CropBox) :=
  if 0 < fb.length then
    sortLe (fun a b => decide (a.1 ≤ b.1))
      ((mergeGroups fb).map fun grp =>
        ((groupBox fb grp).y1, groupBox fb grp, pyCrop (groupBox fb grp)))
  else []

/-! ### Non-maximum suppression (`torchvision.ops.nms`,
`diagram_extraction.py:70-76`) -/

/-- Box area as used by torchvision: `(x2 - x1) * (y2 - y1)`. -/
def boxArea (b : Box) : ℚ := (b.x2 - b.x1) * (b.y2 - b.y1)

/-- Intersection-over-union of two `(x1, y1, x2, y2)` boxes, with clamped
intersection, as computed by `torchvision.ops.nms`.  (Rational division by
zero yields 0, matching the behaviour that a NaN IoU never exceeds the
threshold.) -/
def iou (a b : Box) : ℚ :=
  (max 0 (min a.x2 b.x2 - max a.x1 b.x1) *
      max 0 (min a.y2 b.y2 - max a.y1 b.y1)) /
    (boxArea a + boxArea b -
      max 0 (min a.x2 b.x2 - max a.x1 b.x1) *
        max 0 (min a.y2 b.y2 - max a.y1 b.y1))

/-- Detection indices sorted by descending score (ties keep index order, the
sort being stable over an ascending index list). -/
def nmsOrder (scores : List ℚ) : List ℕ :=
  sortLe (fun i j => decide (scores.getD j 0 ≤ scores.getD i 0))
    (List.range scores.length)

/-- Greedy suppression: keep the best remaining candidate, drop every later
candidate whose IoU with it exceeds the threshold.  The fuel argument (always
at least the list length, which shrinks at every step) only makes the
recursion structural. -/
def nmsGo (boxes : List Box) (thr : ℚ) : ℕ → List ℕ → List ℕ
  | 0, _ => []
  | _ + 1, [] => []
  | fuel + 1, i :: rest =>
    i :: nmsGo boxes thr fuel
      (rest.filter fun j =>
        !(decide (thr < iou (boxes.getD i default) (boxes.getD j default))))

/-- The indices kept by `torchvision.ops.nms(boxes, scores, iou_threshold)`,
in descending-score order. -/
def nmsKeep (boxes : List Box) (scores : List ℚ) (thr : ℚ) : List ℕ :=
  nmsGo boxes thr (nmsOrder scores).length (nmsOrder scores)

/-! ### One page of `extract_diagrams_from_pdf`
(`diagram_extraction.py:59-128`) -/

/-- The kept indices `indices = torchvision.ops.nms(boxes, scores, iou_threshold)`. -/
def pageKept (dets : List Det) (thr : ℚ) : List ℕ :=
  nmsKeep (dets.map Det.box) (dets.map Det.score) thr

/-- Reindexing `b = boxes[indices]`. -/
def keptBoxes (dets : List Det) (thr : ℚ) : List Box :=
  (pageKept dets thr).map fun k => (dets.getD k default).box

/-- Reindexing `c = classes[indices]`. -/
def keptCls (dets : List Det) (thr : ℚ) : List ℕ :=
  (pageKept dets thr).map fun k => (dets.getD k default).cls

/-- Selection `fig_indices = [i for i, cls in enumerate(c) if int(cls) == 3]`. -/
def figIdxList (dets : List Det) (thr : ℚ) : List ℕ :=
  (List.range (keptCls dets thr).length).filter fun i =>
    decide ((keptCls dets thr).getD i 0 = 3)

/-- Selection `fig_boxes = [b[i] for i in fig_indices]`. -/
def figBoxes (dets : List Det) (thr : ℚ) : List Box :=
  (figIdxList dets thr).map fun i => (keptBoxes dets thr).getD i default

/-- The list `page_figs`: the ordered Merged Diagrams of one page. -/
def pageFigs (dets : List Det) (thr : ℚ) : List (ℚ × Box × CropBox) :=
  mergeFigs (figBoxes dets thr)

/-! ### Document loop with per-page recovery (`end_to_end.py:217-300`)

The detector call for each page is modelled by an `Except`-valued input:
`Except.ok dets` is a successful `_model.predict` result, `Except.error e`
a raised exception with message `e`.  On failure the page contributes `[]`
to `figure_snippets` and the `st.error` warning is recorded
(`end_to_end.py:296-298`). -/

def extractDoc (pages : List (Except String (List Det))) (thr : ℚ) :
    List (List (ℚ × Box × CropBox)) × List String :=
  pages.foldl
    (fun acc pg =>
      match pg with
      | Except.ok dets => (acc.1 ++ [pageFigs dets thr], acc.2)
      | Except.error e => (acc.1 ++ [[]], acc.2 ++ [e]))
    ([], [])

/-! ### Sequential figure-identifier assignment
(`end_to_end.py:319-332`) -/

/-- The inner loop `for fig_img in figs`, emitting one `(figure_id, page)`
record per figure and incrementing the counter. -/
def pageMetaGo {α : Type} : ℕ → ℕ → List α → List (ℕ × ℕ)
  | _, _, [] => []
  | c, pg, _ :: fs => (c, pg) :: pageMetaGo (c + 1) pg fs

/-- The outer loop `for page_idx, figs in enumerate(figure_snippets)`, with
`"page": page_idx + 1`. -/
def docMetaGo {α : Type} : ℕ → ℕ → List (List α) → List (ℕ × ℕ)
  | _, _, [] => []
  | c, pgIdx, figs :: rest =>
    pageMetaGo c (pgIdx + 1) figs ++ docMetaGo (c + figs.length) (pgIdx + 1) rest

/-- The `(figure_id, page)` metadata records written by
`log_diagram_snippets`, with `fig_counter` starting at 1. -/
def log_diagram_snippets {α : Type} (snippets : List (List α)) : List (ℕ × ℕ) :=
  docMetaGo 1 0 snippets

/-- The whole pipeline on one document: per-page Merged Diagrams, warnings,
and metadata records. -/
def fullPipeline (pages : List (Except String (List Det))) (thr : ℚ) :
    (List (List (ℚ × Box × CropBox)) × List String) × List (ℕ × ℕ) :=
  (extractDoc pages thr, log_diagram_snippets (extractDoc pages thr).1)

/-! ### Connectivity relation of the specification -/

/-- Two in-range figure indices whose boxes strictly vertically overlap. -/
def OverlapRel (fb : List Box) (a b : ℕ) : Prop :=
  a < fb.length ∧ b < fb.length ∧
    vOverlapB (fb.getD a default) (fb.getD b default) = true

/-- Connected by a chain of strict pairwise vertical overlaps. -/
def Connected (fb : List Box) : ℕ → ℕ → Prop :=
  Relation.EqvGen (OverlapRel fb)

/-! ### Properties of the grouping pass -/

theorem addToGroups_sub {gs : List (ℕ × List ℕ)} {r idx k : ℕ} {g : List ℕ}
    (h : (k, g) ∈ gs) :
    ∃ g', (k, g') ∈ addToGroups gs r idx ∧ ∀ x ∈ g, x ∈ g' := by
  induction gs with
  | nil => cases h
  | cons hd rest ih =>
    obtain ⟨k0, g0⟩ := hd
    by_cases hk : k0 = r
    · simp only [addToGroups, if_pos hk]
      rcases List.mem_cons.mp h with h | h
      · have hk0 : k = k0 := congrArg Prod.fst h
        have hg0 : g = g0 := congrArg Prod.snd h
        subst hk0; subst hg0
        exact ⟨g ++ [idx], List.mem_cons_self _ _,
          fun x hx => List.mem_append_left _ hx⟩
      · exact ⟨g, List.mem_cons_of_mem _ h, fun x hx => hx⟩
    · simp only [addToGroups, if_neg hk]
      rcases List.mem_cons.mp h with h | h
      · have hk0 : k = k0 := congrArg Prod.fst h
        have hg0 : g = g0 := congrArg Prod.snd h
        subst hk0; subst hg0
        exact ⟨g, List.mem_cons_self _ _, fun x hx => hx⟩
      · obtain ⟨g', hg', hsub⟩ := ih h
        exact ⟨g', List.mem_cons_of_mem _ hg', hsub⟩

theorem addToGroups_self {gs : List (ℕ × List ℕ)} (r idx : ℕ) :
    ∃ g', (r, g') ∈ addToGroups gs r idx ∧ idx ∈ g' := by
  induction gs with
  | nil => exact ⟨[idx], List.mem_singleton.mpr rfl, List.mem_singleton.mpr rfl⟩
  | cons hd rest ih =>
    obtain ⟨k0, g0⟩ := hd
    by_cases hk : k0 = r
    · subst hk
      simp only [addToGroups, if_pos rfl]
      exact ⟨g0 ++ [idx], List.mem_cons_self _ _,
        List.mem_append_right _ (List.mem_singleton.mpr rfl)⟩
    · simp only [addToGroups, if_neg hk]
      obtain ⟨g', hg', hmem⟩ := ih
      exact ⟨g', List.mem_cons_of_mem _ hg', hmem⟩

theorem addToGroups_mem_inv {gs : List (ℕ × List ℕ)} {r idx k : ℕ}
    {g : List ℕ} (h : (k, g) ∈ addToGroups gs r idx) :
    ∀ x ∈ g, (∃ g0, (k, g0) ∈ gs ∧ x ∈ g0) ∨ (x = idx ∧ k = r) := by
  induction gs with
  | nil =>
    simp only [addToGroups] at h
    have hk : k = r := (congrArg Prod.fst (List.mem_singleton.mp h))
    have hg : g = [idx] := (congrArg Prod.snd (List.mem_singleton.mp h))
    intro x hx
    rw [hg] at hx
    exact Or.inr ⟨List.mem_singleton.mp hx, hk⟩
  | cons hd rest ih =>
    obtain ⟨k0, g0⟩ := hd
    by_cases hk : k0 = r
    · simp only [addToGroups, if_pos hk] at h
      rcases List.mem_cons.mp h with h | h
      · have hkk : k = k0 := congrArg Prod.fst h
        have hgg : g = g0 ++ [idx] := congrArg Prod.snd h
        intro x hx
        rw [hgg] at hx
        rcases List.mem_append.mp hx with hx | hx
        · exact Or.inl ⟨g0, by rw [hkk]; exact List.mem_cons_self _ _, hx⟩
        · exact Or.inr ⟨List.mem_singleton.mp hx, by rw [hkk, hk]⟩
      · intro x hx
        exact Or.inl ⟨g, List.mem_cons_of_mem _ h, hx⟩
    · simp only [addToGroups, if_neg hk] at h
      rcases List.mem_cons.mp h with h | h
      · have hkk : k = k0 := congrArg Prod.fst h
        have hgg : g = g0 := congrArg Prod.snd h
        intro x hx
        refine Or.inl ⟨g0, ?_, hgg ▸ hx⟩
        rw [hkk]; exact List.mem_cons_self _ _
      · intro x hx
        rcases ih h x hx with ⟨g1, hg1, hx1⟩ | hcase
        · exact Or.inl ⟨g1, List.mem_cons_of_mem _ hg1, hx1⟩
        · exact Or.inr hcase

theorem addToGroups_keys {gs : List (ℕ × List ℕ)} (r idx : ℕ) :
    (addToGroups gs r idx).map Prod.fst =
      if r ∈ gs.map Prod.fst then gs.map Prod.fst
      else gs.map Prod.fst ++ [r] := by
  induction gs with
  | nil => simp [addToGroups]
  | cons hd rest ih =>
    obtain ⟨k0, g0⟩ := hd
    by_cases hk : k0 = r
    · subst hk
      simp [addToGroups]
    · simp only [addToGroups, if_neg hk, List.map_cons, ih]
      by_cases hr : r ∈ rest.map Prod.fst
      · rw [if_pos hr,
          if_pos (List.mem_cons_of_mem _ hr)]
      · rw [if_neg hr, if_neg ?_]
        · simp
        · intro hmem
          rcases List.mem_cons.mp hmem with h | h
          · exact hk h.symm
          · exact hr h

theorem addToGroups_keys_nodup {gs : List (ℕ × List ℕ)} {r idx : ℕ}
    (h : (gs.map Prod.fst).Nodup) :
    ((addToGroups gs r idx).map Prod.fst).Nodup := by
  rw [addToGroups_keys]
  by_cases hr : r ∈ gs.map Prod.fst
  · rwa [if_pos hr]
  · rw [if_neg hr]
    rw [List.nodup_append]
    exact ⟨h, List.nodup_singleton r, by
      intro a ha hb
      rw [List.mem_singleton] at hb
      subst hb
      exact hr ha⟩

theorem addToGroups_ne_nil {gs : List (ℕ × List ℕ)} {r idx k : ℕ}
    {g : List ℕ} (h : (k, g) ∈ addToGroups gs r idx)
    (h0 : ∀ k1 g1, (k1, g1) ∈ gs → g1 ≠ []) : g ≠ [] := by
  induction gs with
  | nil =>
    have hg : g = [idx] := congrArg Prod.snd (List.mem_singleton.mp h)
    rw [hg]
    simp
  | cons hd rest ih =>
    obtain ⟨k0, g0⟩ := hd
    by_cases hk : k0 = r
    · simp only [addToGroups, if_pos hk] at h
      rcases List.mem_cons.mp h with h | h
      · have hgg : g = g0 ++ [idx] := congrArg Prod.snd h
        rw [hgg]
        simp
      · exact h0 k g (List.mem_cons_of_mem _ h)
    · simp only [addToGroups, if_neg hk] at h
      rcases List.mem_cons.mp h with h | h
      · have hgg : g = g0 := congrArg Prod.snd h
        exact hgg ▸ h0 k0 g0 (List.mem_cons_self _ _)
      · exact ih h (fun k1 g1 hm => h0 k1 g1 (List.mem_cons_of_mem _ hm))

theorem nodup_keys_unique {gs : List (ℕ × List ℕ)} {k : ℕ} {g g' : List ℕ}
    (hnd : (gs.map Prod.fst).Nodup) (h : (k, g) ∈ gs) (h' : (k, g') ∈ gs) :
    g = g' := by
  induction gs with
  | nil => cases h
  | cons hd rest ih =>
    obtain ⟨k0, g0⟩ := hd
    simp only [List.map_cons, List.nodup_cons] at hnd
    rcases List.mem_cons.mp h with h1 | h1 <;> rcases List.mem_cons.mp h' with h2 | h2
    · have e1 : g = g0 := congrArg Prod.snd h1
      have e2 : g' = g0 := congrArg Prod.snd h2
      rw [e1, e2]
    · exfalso
      have e1 : k = k0 := congrArg Prod.fst h1
      refine hnd.1 ?_
      rw [← e1]
      exact List.mem_map.mpr ⟨(k, g'), h2, rfl⟩
    · exfalso
      have e2 : k = k0 := congrArg Prod.fst h2
      refine hnd.1 ?_
      rw [← e2]
      exact List.mem_map.mpr ⟨(k, g), h1, rfl⟩
    · exact ih hnd.2 h1 h2

/-- Loop invariant of the grouping pass: buckets hold exactly the processed
indices, keyed and grouped by their root in the (root-stable) parents
list. -/
theorem groupFold_loop {n : ℕ} {p0 : List ℕ} :
    ∀ (idxs done : List ℕ) (st : List ℕ × List (ℕ × List ℕ)),
      (∀ x ∈ idxs, x < n) →
      st.1.length = n → UFInv st.1 →
      (∀ y, y < n → root st.1 y = root p0 y) →
      (∀ k g, (k, g) ∈ st.2 → ∀ x ∈ g, x ∈ done ∧ x < n ∧ root p0 x = k) →
      (∀ x ∈ done, ∃ g, (root p0 x, g) ∈ st.2 ∧ x ∈ g) →
      (st.2.map Prod.fst).Nodup →
      (∀ k g, (k, g) ∈ st.2 → g ≠ []) →
      ((∀ k g, (k, g) ∈
          (idxs.foldl (fun st idx =>
            ((find st.1.length st.1 idx).1,
              addToGroups st.2 (find st.1.length st.1 idx).2 idx)) st).2 →
          ∀ x ∈ g, x ∈ done ++ idxs ∧ x < n ∧ root p0 x = k) ∧
        (∀ x ∈ done ++ idxs, ∃ g, (root p0 x, g) ∈
          (idxs.foldl (fun st idx =>
            ((find st.1.length st.1 idx).1,
              addToGroups st.2 (find st.1.length st.1 idx).2 idx)) st).2 ∧ x ∈ g) ∧
        (((idxs.foldl (fun st idx =>
            ((find st.1.length st.1 idx).1,
              addToGroups st.2 (find st.1.length st.1 idx).2 idx)) st).2.map
            Prod.fst).Nodup) ∧
        (∀ k g, (k, g) ∈
          (idxs.foldl (fun st idx =>
            ((find st.1.length st.1 idx).1,
              addToGroups st.2 (find st.1.length st.1 idx).2 idx)) st).2 →
          g ≠ [])) := by
  intro idxs
  induction idxs with
  | nil =>
    intro done st _ _ _ _ hA hB hC hD
    simpa using ⟨hA, hB, hC, hD⟩
  | cons idx rest ih =>
    intro done st hlt hlen hinv hroots hA hB hC hD
    have hidx : idx < n := hlt idx (List.mem_cons_self _ _)
    have hidxp : idx < st.1.length := hlen ▸ hidx
    obtain ⟨f1, f2, f3, f4⟩ := find_full hinv hidxp
    set p1 := (find st.1.length st.1 idx).1 with hp1
    set r := (find st.1.length st.1 idx).2 with hr
    have hrval : r = root p0 idx := by
      rw [f1]
      exact hroots idx hidx
    have hlen1 : p1.length = n := by rw [hp1, f2, hlen]
    have hroots1 : ∀ y, y < n → root p1 y = root p0 y := by
      intro y hy
      rw [hp1, f4 y (hlen ▸ hy), hroots y hy]
    have hA1 : ∀ k g, (k, g) ∈ addToGroups st.2 r idx →
        ∀ x ∈ g, x ∈ done ++ [idx] ∧ x < n ∧ root p0 x = k := by
      intro k g hmem x hx
      rcases addToGroups_mem_inv hmem x hx with ⟨g0, hg0, hx0⟩ | ⟨hxe, hke⟩
      · obtain ⟨hd, hn2, hrt⟩ := hA k g0 hg0 x hx0
        exact ⟨List.mem_append_left _ hd, hn2, hrt⟩
      · subst hxe
        refine ⟨List.mem_append_right _ (List.mem_singleton.mpr rfl), hidx, ?_⟩
        rw [← hrval, hke]
    have hB1 : ∀ x ∈ done ++ [idx],
        ∃ g, (root p0 x, g) ∈ addToGroups st.2 r idx ∧ x ∈ g := by
      intro x hx
      rcases List.mem_append.mp hx with hx | hx
      · obtain ⟨g, hg, hxg⟩ := hB x hx
        obtain ⟨g', hg', hsub⟩ := addToGroups_sub hg
        exact ⟨g', hg', hsub x hxg⟩
      · have hxe : x = idx := List.mem_singleton.mp hx
        subst hxe
        obtain ⟨g', hg', hxg⟩ := addToGroups_self r x
        exact ⟨g', hrval ▸ hg', hxg⟩
    have hC1 : ((addToGroups st.2 r idx).map Prod.fst).Nodup :=
      addToGroups_keys_nodup hC
    have hD1 : ∀ k g, (k, g) ∈ addToGroups st.2 r idx → g ≠ [] :=
      fun k g hmem => addToGroups_ne_nil hmem hD
    have hlt1 : ∀ x ∈ rest, x < n :=
      fun x hx => hlt x (List.mem_cons_of_mem _ hx)
    have := ih (done ++ [idx]) (p1, addToGroups st.2 r idx) hlt1 hlen1 f3
      hroots1 hA1 hB1 hC1 hD1
    simpa [List.append_assoc] using this

/-- The final parents list is well-formed, has length `n`, and its
root-equality relation is the equivalence closure of the strict
vertical-overlap relation on the page's figure boxes. -/
theorem finalParents_spec (fb : List Box) :
    (finalParents fb).length = fb.length ∧ UFInv (finalParents fb) ∧
      ∀ x y, x < fb.length → y < fb.length →
        (root (finalParents fb) x = root (finalParents fb) y ↔
          Connected fb x y) := by
  have hfold : finalParents fb =
      ((pairList fb.length).filter fun pr =>
        vOverlapB (fb.getD pr.1 default) (fb.getD pr.2 default)).foldl
        (fun st pr => union st pr.1 pr.2) (List.range fb.length) := by
    unfold finalParents
    generalize List.range fb.length = p
    induction (pairList fb.length) generalizing p with
    | nil => rfl
    | cons hd tl ih =>
      rw [List.filter_cons]
      by_cases hov : vOverlapB (fb.getD hd.1 default) (fb.getD hd.2 default)
      · rw [if_pos hov, List.foldl_cons, List.foldl_cons, if_pos hov, ih]
      · rw [if_neg (by simpa using hov), List.foldl_cons, if_neg hov, ih]
  have hqs : ∀ pr ∈ (pairList fb.length).filter fun pr =>
      vOverlapB (fb.getD pr.1 default) (fb.getD pr.2 default),
      pr.1 < fb.length ∧ pr.2 < fb.length := by
    intro pr hpr
    obtain ⟨hmem, -⟩ := List.mem_filter.mp hpr
    obtain ⟨i, j⟩ := pr
    obtain ⟨hij, hjn⟩ := mem_pairList.mp hmem
    exact ⟨lt_trans hij hjn, hjn⟩
  have hbase : ∀ x y, x < fb.length → y < fb.length →
      (root (List.range fb.length) x = root (List.range fb.length) y ↔
        Relation.EqvGen (relOf []) x y) := by
    intro x y _ _
    rw [root_range, root_range, eqvGen_relOf_nil]
  obtain ⟨s1, s2, s3⟩ := foldl_union_spec
    ((pairList fb.length).filter fun pr =>
      vOverlapB (fb.getD pr.1 default) (fb.getD pr.2 default)) []
    (List.range fb.length) (List.length_range _) (ufinv_range _) hqs
    (by intro pr hpr; cases hpr) hbase
  rw [← hfold] at s1 s2 s3
  have himp : ∀ a b, Relation.EqvGen (OverlapRel fb) a b →
      Relation.EqvGen (relOf ((pairList fb.length).filter fun pr =>
        vOverlapB (fb.getD pr.1 default) (fb.getD pr.2 default))) a b := by
    intro a b h
    induction h with
    | rel a b hab =>
      obtain ⟨han, hbn, hov⟩ := hab
      rcases Nat.lt_trichotomy a b with hlt | heq | hgt
      · refine Relation.EqvGen.rel a b (Or.inl ?_)
        rw [List.mem_filter]
        exact ⟨mem_pairList.mpr ⟨hlt, hbn⟩, hov⟩
      · subst heq
        exact Relation.EqvGen.refl a
      · refine Relation.EqvGen.rel a b (Or.inr ?_)
        rw [List.mem_filter]
        exact ⟨mem_pairList.mpr ⟨hgt, han⟩, by rw [vOverlapB_symm]; exact hov⟩
    | refl a => exact Relation.EqvGen.refl a
    | symm a b _ ih => exact Relation.EqvGen.symm a b ih
    | trans a b c _ _ ih1 ih2 => exact Relation.EqvGen.trans a b c ih1 ih2
  refine ⟨s1, s2, ?_⟩
  intro x y hx hy
  rw [s3 x y hx hy]
  simp only [List.nil_append]
  constructor
  · intro h
    refine h.mono ?_
    intro a b hab
    rcases hab with hab | hab
    · obtain ⟨hmem, hov⟩ := List.mem_filter.mp hab
      obtain ⟨hlt1, hlt2⟩ := hqs (a, b) hab
      exact ⟨hlt1, hlt2, hov⟩
    · obtain ⟨hmem, hov⟩ := List.mem_filter.mp hab
      obtain ⟨hlt1, hlt2⟩ := hqs (b, a) hab
      exact ⟨hlt2, hlt1, by rw [vOverlapB_symm]; exact hov⟩
  · exact himp x y

/-- Structure of the Merge Groups: groups are nonempty, contain only
in-range indices, cover every index, and two indices share a group exactly
when they have the same union-find root. -/
theorem mergeGroups_spec (fb : List Box) :
    (∀ g ∈ mergeGroups fb, g ≠ [] ∧ ∀ x ∈ g, x < fb.length) ∧
    (∀ i, i < fb.length → ∃ g ∈ mergeGroups fb, i ∈ g) ∧
    (∀ i j, i < fb.length → j < fb.length →
      ((∃ g ∈ mergeGroups fb, i ∈ g ∧ j ∈ g) ↔
        root (finalParents fb) i = root (finalParents fb) j)) := by
  obtain ⟨s1, s2, -⟩ := finalParents_spec fb
  have hloop := @groupFold_loop fb.length (finalParents fb)
    (List.range (finalParents fb).length) [] (finalParents fb, [])
    (by intro x hx; rw [List.mem_range, s1] at hx; exact hx)
    s1 s2 (fun y _ => rfl)
    (by intro k g hg; cases hg)
    (by intro x hx; cases hx)
    (by simp)
    (by intro k g hg; cases hg)
  have hres : (groupFold (finalParents fb)).2 =
      ((List.range (finalParents fb).length).foldl (fun st idx =>
        ((find st.1.length st.1 idx).1,
          addToGroups st.2 (find st.1.length st.1 idx).2 idx))
        (finalParents fb, [])).2 := rfl
  obtain ⟨hA, hB, hC, hD⟩ := hloop
  rw [← hres] at hA hB hC hD
  simp only [List.nil_append] at hA hB
  have hrange : ∀ x, x < fb.length → x ∈ List.range (finalParents fb).length := by
    intro x hx
    rw [List.mem_range, s1]
    exact hx
  refine ⟨?_, ?_, ?_⟩
  · intro g hg
    obtain ⟨⟨k, g0⟩, hmem, hsnd⟩ := List.mem_map.mp hg
    have hgg : g0 = g := hsnd
    subst hgg
    refine ⟨hD k g0 hmem, ?_⟩
    intro x hx
    exact (hA k g0 hmem x hx).2.1
  · intro i hi
    obtain ⟨g, hg, hig⟩ := hB i (hrange i hi)
    exact ⟨g, List.mem_map.mpr ⟨(root (finalParents fb) i, g), hg, rfl⟩, hig⟩
  · intro i j hi hj
    constructor
    · rintro ⟨g, hg, hig, hjg⟩
      obtain ⟨⟨k, g0⟩, hmem, hsnd⟩ := List.mem_map.mp hg
      have hgg : g0 = g := hsnd
      subst hgg
      have h1 := (hA k g0 hmem i hig).2.2
      have h2 := (hA k g0 hmem j hjg).2.2
      rw [h1, h2]
    · intro hroot
      obtain ⟨gi, hgi, higi⟩ := hB i (hrange i hi)
      obtain ⟨gj, hgj, hjgj⟩ := hB j (hrange j hj)
      rw [← hroot] at hgj
      have : gi = gj := nodup_keys_unique hC hgi hgj
      subst this
      exact ⟨gi, List.mem_map.mpr ⟨(root (finalParents fb) i, gi), hgi, rfl⟩,
        higi, hjgj⟩

/-- C1: on every page, the Merge Groups computed by the Figure Region
Merger are exactly the connected components of the figure-class boxes under
the strict pairwise vertical-overlap relation `y1_i < y2_j ∧ y1_j < y2_i`:
two indices lie in a common Merge Group iff they are joined by a chain of
strictly overlapping pairs.  In particular boxes whose vertical spans only
touch (`y2` of one equals `y1` of the other) generate no edge, and boxes
with disjoint spans end up in different groups unless a third box bridges
them. -/
theorem merge_groups_are_overlap_components (fb : List Box) (i j : ℕ)
    (hi : i < fb.length) (hj : j < fb.length) :
    (∃ g ∈ mergeGroups fb, i ∈ g ∧ j ∈ g) ↔ Connected fb i j := by
  obtain ⟨-, -, hiff⟩ := mergeGroups_spec fb
  obtain ⟨-, -, hconn⟩ := finalParents_spec fb
  rw [hiff i j hi hj, hconn i j hi hj]

/-- Witness for C1 on a concrete page: two boxes with strictly overlapping
vertical spans. -/
theorem merge_groups_are_overlap_components_witness :
    (∃ g ∈ mergeGroups [(⟨0, 0, 10, 10⟩ : Box), ⟨0, 5, 10, 15⟩], 0 ∈ g ∧ 1 ∈ g) ↔
      Connected [(⟨0, 0, 10, 10⟩ : Box), ⟨0, 5, 10, 15⟩] 0 1 :=
  merge_groups_are_overlap_components _ 0 1 (by decide) (by decide)

/-! ### Properties of the stable insertion sort -/

theorem mem_insertLe {α : Type} {le : α → α → Bool} {a x : α} :
    ∀ {l : List α}, x ∈ insertLe le a l ↔ x = a ∨ x ∈ l := by
  intro l
  induction l with
  | nil => simp [insertLe]
  | cons b bs ih =>
    by_cases hab : le a b
    · simp [insertLe, hab]
    · simp only [insertLe, if_neg hab, List.mem_cons, ih]
      tauto

theorem insertLe_perm {α : Type} (le : α → α → Bool) (a : α) :
    ∀ (l : List α), (insertLe le a l).Perm (a :: l) := by
  intro l
  induction l with
  | nil => exact List.Perm.refl _
  | cons b bs ih =>
    by_cases hab : le a b
    · rw [insertLe, if_pos hab]
    · rw [insertLe, if_neg hab]
      exact List.Perm.trans ((List.perm_cons b).mpr ih) (List.Perm.swap a b bs)

theorem sortLe_perm {α : Type} (le : α → α → Bool) :
    ∀ (l : List α), (sortLe le l).Perm l := by
  intro l
  induction l with
  | nil => exact List.Perm.refl _
  | cons a as ih =>
    have h1 : sortLe le (a :: as) = insertLe le a (sortLe le as) := rfl
    rw [h1]
    exact List.Perm.trans (insertLe_perm le a (sortLe le as))
      ((List.perm_cons a).mpr ih)

theorem insertLe_sorted {α : Type} {le : α → α → Bool}
    (htot : ∀ a b, le a b = true ∨ le b a = true)
    (htrans : ∀ a b c, le a b = true → le b c = true → le a c = true)
    (a : α) :
    ∀ {l : List α}, l.Pairwise (fun x y => le x y = true) →
      (insertLe le a l).Pairwise (fun x y => le x y = true) := by
  intro l
  induction l with
  | nil => intro _; simp [insertLe]
  | cons b bs ih =>
    intro hsor
    obtain ⟨hb, hbs⟩ := List.pairwise_cons.mp hsor
    by_cases hab : le a b
    · rw [insertLe, if_pos hab]
      refine List.pairwise_cons.mpr ⟨?_, hsor⟩
      intro x hx
      rcases List.mem_cons.mp hx with rfl | hx
      · exact hab
      · exact htrans a b x hab (hb x hx)
    · rw [insertLe, if_neg hab]
      have hba : le b a = true := by
        rcases htot a b with h | h
        · exact absurd h hab
        · exact h
      refine List.pairwise_cons.mpr ⟨?_, ih hbs⟩
      intro x hx
      rcases mem_insertLe.mp hx with rfl | hx
      · exact hba
      · exact hb x hx

theorem sortLe_sorted {α : Type} {le : α → α → Bool}
    (htot : ∀ a b, le a b = true ∨ le b a = true)
    (htrans : ∀ a b c, le a b = true → le b c = true → le a c = true) :
    ∀ (l : List α), (sortLe le l).Pairwise (fun x y => le x y = true) := by
  intro l
  induction l with
  | nil => simp [sortLe]
  | cons a as ih => exact insertLe_sorted htot htrans a ih

/-! ### Properties of `min` / `max` over nonempty lists -/

theorem foldl_min_le_init : ∀ (l : List ℚ) (a : ℚ), l.foldl min a ≤ a := by
  intro l
  induction l with
  | nil => intro a; exact le_refl a
  | cons b bs ih =>
    intro a
    exact le_trans (ih (min a b)) (min_le_left a b)

theorem foldl_min_le_mem : ∀ (l : List ℚ) (a x : ℚ), x ∈ l → l.foldl min a ≤ x := by
  intro l
  induction l with
  | nil => intro a x hx; cases hx
  | cons b bs ih =>
    intro a x hx
    rcases List.mem_cons.mp hx with rfl | hx
    · exact le_trans (foldl_min_le_init bs (min a x)) (min_le_right a x)
    · exact ih (min a b) x hx

theorem foldl_min_mem : ∀ (l : List ℚ) (a : ℚ), l.foldl min a = a ∨ l.foldl min a ∈ l := by
  intro l
  induction l with
  | nil => intro a; exact Or.inl rfl
  | cons b bs ih =>
    intro a
    rcases ih (min a b) with h | h
    · rcases min_choice a b with hm | hm
      · exact Or.inl (by rw [List.foldl_cons, h, hm])
      · exact Or.inr (by rw [List.foldl_cons, h, hm]; exact List.mem_cons_self _ _)
    · exact Or.inr (List.mem_cons_of_mem b h)

theorem listMinQ_le {l : List ℚ} {x : ℚ} (hx : x ∈ l) : listMinQ l ≤ x := by
  cases l with
  | nil => cases hx
  | cons a as =>
    rcases List.mem_cons.mp hx with rfl | hx
    · exact foldl_min_le_init as x
    · exact foldl_min_le_mem as a x hx

theorem listMinQ_mem {l : List ℚ} (hl : l ≠ []) : listMinQ l ∈ l := by
  cases l with
  | nil => exact absurd rfl hl
  | cons a as =>
    rcases foldl_min_mem as a with h | h
    · rw [listMinQ, h]; exact List.mem_cons_self _ _
    · exact List.mem_cons_of_mem a (by rw [listMinQ]; exact h)

theorem foldl_max_init_le : ∀ (l : List ℚ) (a : ℚ), a ≤ l.foldl max a := by
  intro l
  induction l with
  | nil => intro a; exact le_refl a
  | cons b bs ih =>
    intro a
    exact le_trans (le_max_left a b) (ih (max a b))

theorem foldl_max_mem_le : ∀ (l : List ℚ) (a x : ℚ), x ∈ l → x ≤ l.foldl max a := by
  intro l
  induction l with
  | nil => intro a x hx; cases hx
  | cons b bs ih =>
    intro a x hx
    rcases List.mem_cons.mp hx with rfl | hx
    · exact le_trans (le_max_right a x) (foldl_max_init_le bs (max a x))
    · exact ih (max a b) x hx

theorem foldl_max_mem : ∀ (l : List ℚ) (a : ℚ), l.foldl max a = a ∨ l.foldl max a ∈ l := by
  intro l
  induction l with
  | nil => intro a; exact Or.inl rfl
  | cons b bs ih =>
    intro a
    rcases ih (max a b) with h | h
    · rcases max_choice a b with hm | hm
      · exact Or.inl (by rw [List.foldl_cons, h, hm])
      · exact Or.inr (by rw [List.foldl_cons, h, hm]; exact List.mem_cons_self _ _)
    · exact Or.inr (List.mem_cons_of_mem b h)

theorem le_listMaxQ {l : List ℚ} {x : ℚ} (hx : x ∈ l) : x ≤ listMaxQ l := by
  cases l with
  | nil => cases hx
  | cons a as =>
    rcases List.mem_cons.mp hx with rfl | hx
    · exact foldl_max_init_le as x
    · exact foldl_max_mem_le as a x hx

theorem listMaxQ_mem {l : List ℚ} (hl : l ≠ []) : listMaxQ l ∈ l := by
  cases l with
  | nil => exact absurd rfl hl
  | cons a as =>
    rcases foldl_max_mem as a with h | h
    · rw [listMaxQ, h]; exact List.mem_cons_self _ _
    · exact List.mem_cons_of_mem a (by rw [listMaxQ]; exact h)

/-! ### Properties of the Python `int()` truncation -/

theorem pyInt_le {q : ℚ} (hq : 0 ≤ q) : ((pyInt q : ℤ) : ℚ) ≤ q := by
  rw [pyInt, if_neg (not_lt.mpr hq)]
  exact Rat.le_floor.mp (le_refl _)

theorem lt_pyInt_add_one {q : ℚ} (hq : 0 ≤ q) : q < ((pyInt q : ℤ) : ℚ) + 1 := by
  rw [pyInt, if_neg (not_lt.mpr hq)]
  by_contra hle
  push_neg at hle
  have h1 : ((q.floor + 1 : ℤ) : ℚ) ≤ q := by push_cast; linarith
  have h2 : q.floor + 1 ≤ q.floor := Rat.le_floor.mpr h1
  omega

/-! ### Claims C3, C7, C8 -/

/-- C3: the Merged Diagrams of a page are sorted ascending by the group's
minimum `y1` (topmost first): for positions `i < j` in the output list the
sort keys satisfy `key i ≤ key j`. -/
theorem merged_output_sorted_by_y1 (fb : List Box) (i j : ℕ) (hij : i < j)
    (hjlen : j < (mergeFigs fb).length) :
    ((mergeFigs fb).getD i default).1 ≤ ((mergeFigs fb).getD j default).1 := by
  by_cases hn : 0 < fb.length
  · have hdef : mergeFigs fb =
        sortLe (fun a b => decide (a.1 ≤ b.1))
          ((mergeGroups fb).map fun grp =>
            ((groupBox fb grp).y1, groupBox fb grp, pyCrop (groupBox fb grp))) := by
      unfold mergeFigs
      rw [if_pos hn]
    have htot : ∀ a b : ℚ × Box × CropBox,
        (decide (a.1 ≤ b.1)) = true ∨ (decide (b.1 ≤ a.1)) = true := by
      intro a b
      rcases le_total a.1 b.1 with h | h
      · exact Or.inl (decide_eq_true h)
      · exact Or.inr (decide_eq_true h)
    have htrans : ∀ a b c : ℚ × Box × CropBox,
        (decide (a.1 ≤ b.1)) = true → (decide (b.1 ≤ c.1)) = true →
        (decide (a.1 ≤ c.1)) = true := by
      intro a b c h1 h2
      exact decide_eq_true (le_trans (of_decide_eq_true h1) (of_decide_eq_true h2))
    have hs := sortLe_sorted htot htrans
      ((mergeGroups fb).map fun grp =>
        ((groupBox fb grp).y1, groupBox fb grp, pyCrop (groupBox fb grp)))
    rw [← hdef] at hs
    have hilen : i < (mergeFigs fb).length := lt_trans hij hjlen
    rw [List.getD_eq_getElem _ _ hilen, List.getD_eq_getElem _ _ hjlen]
    exact of_decide_eq_true (List.pairwise_iff_getElem.mp hs i j hilen hjlen hij)
  · exfalso
    have : mergeFigs fb = [] := by
      unfold mergeFigs
      rw [if_neg hn]
    rw [this] at hjlen
    cases hjlen

/-- Witness for C3: a page with two non-overlapping figure boxes gives two
output diagrams with nondecreasing sort keys. -/
theorem merged_output_sorted_by_y1_witness :
    ((mergeFigs [(⟨0, 0, 10, 10⟩ : Box), ⟨0, 20, 10, 30⟩]).getD 0 default).1 ≤
      ((mergeFigs [(⟨0, 0, 10, 10⟩ : Box), ⟨0, 20, 10, 30⟩]).getD 1 default).1 :=
  merged_output_sorted_by_y1 _ 0 1 (by decide) (by decide)

/-- A singleton figure list produces exactly one Merged Diagram whose union
box is the input box, unchanged. -/
theorem mergeFigs_singleton (b : Box) :
    mergeFigs [b] = [(b.y1, b, pyCrop b)] := rfl

/-- C7: if exactly one figure-class detection survives NMS, the merger
outputs exactly one Merged Diagram whose bounding box equals the input
region's box exactly. -/
theorem single_detection_box_unchanged (dets : List Det) (thr : ℚ) (b : Box)
    (h : figBoxes dets thr = [b]) :
    pageFigs dets thr = [(b.y1, b, pyCrop b)] := by
  unfold pageFigs
  rw [h]
  exact mergeFigs_singleton b

/-- Witness for C7: one figure-class detection. -/
theorem single_detection_box_unchanged_witness :
    pageFigs [(⟨⟨0, 0, 10, 10⟩, 3, 1⟩ : Det)] 0 =
      [((⟨0, 0, 10, 10⟩ : Box).y1, ⟨0, 0, 10, 10⟩, pyCrop ⟨0, 0, 10, 10⟩)] :=
  single_detection_box_unchanged _ _ _ (by decide)

/-- C8: if the page's post-NMS detections contain zero figure-class
regions (`c`, the surviving class list, has no class-3 entry — whether
because none was detected or because every figure detection was
NMS-suppressed), the page's Merged Diagram list is empty, regardless of
the other classes present. -/
theorem no_figures_empty_output (dets : List Det) (thr : ℚ)
    (hk3 : ∀ x ∈ keptCls dets thr, x ≠ 3) : pageFigs dets thr = [] := by
  have hfig : figIdxList dets thr = [] := by
    rw [figIdxList, List.filter_eq_nil_iff]
    intro i hi
    rw [List.mem_range] at hi
    simp only [decide_eq_true_eq]
    rw [List.getD_eq_getElem _ _ hi]
    exact hk3 _ (List.getElem_mem hi)
  have hboxes : figBoxes dets thr = [] := by
    rw [figBoxes, hfig]
    rfl
  rw [pageFigs, hboxes]
  rfl

/-- Witness for C8: a page whose surviving post-NMS detections are a
single plain-text region. -/
theorem no_figures_empty_output_witness :
    pageFigs [(⟨⟨0, 0, 10, 10⟩, 1, 1⟩ : Det)] 0 = [] :=
  no_figures_empty_output _ _ (by decide)

/-! ### Claim C2: union box and integer crop -/

theorem getD_mem_of_lt {fb : List Box} {i : ℕ} (hi : i < fb.length) :
    fb.getD i default ∈ fb := by
  rw [List.getD_eq_getElem _ _ hi]
  exact List.getElem_mem hi

/-- C2 (amended): for every Merge Group, the Merged Diagram's box is the
coordinate-wise union of the member boxes and therefore contains every
member box; the crop rectangle is its `int()` truncation, so the crop's
top-left bounds every member's top-left, while its bottom-right can fall
short of a member's `x2`/`y2` by strictly less than one pixel. -/
theorem merged_box_union_and_crop_bounds (fb : List Box) (g : List ℕ) (i : ℕ)
    (hg : g ∈ mergeGroups fb) (hi : i ∈ g)
    (hpos : ∀ b ∈ fb, 0 ≤ b.x1 ∧ 0 ≤ b.y1 ∧ 0 ≤ b.x2 ∧ 0 ≤ b.y2) :
    ((groupBox fb g).y1, groupBox fb g, pyCrop (groupBox fb g)) ∈ mergeFigs fb ∧
    (groupBox fb g).x1 ≤ (fb.getD i default).x1 ∧
    (groupBox fb g).y1 ≤ (fb.getD i default).y1 ∧
    (fb.getD i default).x2 ≤ (groupBox fb g).x2 ∧
    (fb.getD i default).y2 ≤ (groupBox fb g).y2 ∧
    (((pyCrop (groupBox fb g)).x1 : ℤ) : ℚ) ≤ (fb.getD i default).x1 ∧
    (((pyCrop (groupBox fb g)).y1 : ℤ) : ℚ) ≤ (fb.getD i default).y1 ∧
    (fb.getD i default).x2 < (((pyCrop (groupBox fb g)).x2 : ℤ) : ℚ) + 1 ∧
    (fb.getD i default).y2 < (((pyCrop (groupBox fb g)).y2 : ℤ) : ℚ) + 1 := by
  obtain ⟨hstruct, -, -⟩ := mergeGroups_spec fb
  obtain ⟨hne, hmem_lt⟩ := hstruct g hg
  have hilt : i < fb.length := hmem_lt i hi
  have hlen : 0 < fb.length := lt_of_le_of_lt (Nat.zero_le i) hilt
  have hmap_ne : ∀ f : Box → ℚ, g.map (fun k => f (fb.getD k default)) ≠ [] := by
    intro f h
    exact hne (List.map_eq_nil_iff.mp h)
  have hnonneg : ∀ (f : Box → ℚ), (∀ b ∈ fb, 0 ≤ f b) →
      ∀ x ∈ g.map (fun k => f (fb.getD k default)), 0 ≤ x := by
    intro f hf x hx
    obtain ⟨k, hk, heq⟩ := List.mem_map.mp hx
    rw [← heq]
    exact hf _ (getD_mem_of_lt (hmem_lt k hk))
  have hx1mem : (fb.getD i default).x1 ∈ g.map fun k => (fb.getD k default).x1 :=
    List.mem_map.mpr ⟨i, hi, rfl⟩
  have hy1mem : (fb.getD i default).y1 ∈ g.map fun k => (fb.getD k default).y1 :=
    List.mem_map.mpr ⟨i, hi, rfl⟩
  have hx2mem : (fb.getD i default).x2 ∈ g.map fun k => (fb.getD k default).x2 :=
    List.mem_map.mpr ⟨i, hi, rfl⟩
  have hy2mem : (fb.getD i default).y2 ∈ g.map fun k => (fb.getD k default).y2 :=
    List.mem_map.mpr ⟨i, hi, rfl⟩
  have hux1 : (groupBox fb g).x1 ≤ (fb.getD i default).x1 := listMinQ_le hx1mem
  have huy1 : (groupBox fb g).y1 ≤ (fb.getD i default).y1 := listMinQ_le hy1mem
  have hux2 : (fb.getD i default).x2 ≤ (groupBox fb g).x2 := le_listMaxQ hx2mem
  have huy2 : (fb.getD i default).y2 ≤ (groupBox fb g).y2 := le_listMaxQ hy2mem
  have hgx1 : 0 ≤ (groupBox fb g).x1 := by
    have := listMinQ_mem (hmap_ne fun b => b.x1)
    exact hnonneg (fun b => b.x1) (fun b hb => (hpos b hb).1) _ this
  have hgy1 : 0 ≤ (groupBox fb g).y1 := by
    have := listMinQ_mem (hmap_ne fun b => b.y1)
    exact hnonneg (fun b => b.y1) (fun b hb => (hpos b hb).2.1) _ this
  have hgx2 : 0 ≤ (groupBox fb g).x2 := by
    have := listMaxQ_mem (hmap_ne fun b => b.x2)
    exact hnonneg (fun b => b.x2) (fun b hb => (hpos b hb).2.2.1) _ this
  have hgy2 : 0 ≤ (groupBox fb g).y2 := by
    have := listMaxQ_mem (hmap_ne fun b => b.y2)
    exact hnonneg (fun b => b.y2) (fun b hb => (hpos b hb).2.2.2) _ this
  refine ⟨?_, hux1, huy1, hux2, huy2, ?_, ?_, ?_, ?_⟩
  · have hdef : mergeFigs fb =
        sortLe (fun a b => decide (a.1 ≤ b.1))
          ((mergeGroups fb).map fun grp =>
            ((groupBox fb grp).y1, groupBox fb grp, pyCrop (groupBox fb grp))) := by
      unfold mergeFigs
      rw [if_pos hlen]
    rw [hdef]
    refine (sortLe_perm _ _).mem_iff.mpr ?_
    exact List.mem_map.mpr ⟨g, hg, rfl⟩
  · exact le_trans (pyInt_le hgx1) hux1
  · exact le_trans (pyInt_le hgy1) huy1
  · exact lt_of_le_of_lt hux2 (lt_pyInt_add_one hgx2)
  · exact lt_of_le_of_lt huy2 (lt_pyInt_add_one hgy2)

/-- Witness for the amended C2 on a concrete singleton group. -/
theorem merged_box_union_and_crop_bounds_witness :
    ((groupBox [(⟨0, 0, 10, 10⟩ : Box)] [0]).y1,
        groupBox [(⟨0, 0, 10, 10⟩ : Box)] [0],
        pyCrop (groupBox [(⟨0, 0, 10, 10⟩ : Box)] [0])) ∈
      mergeFigs [(⟨0, 0, 10, 10⟩ : Box)] ∧
    (groupBox [(⟨0, 0, 10, 10⟩ : Box)] [0]).x1 ≤
      ([(⟨0, 0, 10, 10⟩ : Box)].getD 0 default).x1 ∧
    (groupBox [(⟨0, 0, 10, 10⟩ : Box)] [0]).y1 ≤
      ([(⟨0, 0, 10, 10⟩ : Box)].getD 0 default).y1 ∧
    ([(⟨0, 0, 10, 10⟩ : Box)].getD 0 default).x2 ≤
      (groupBox [(⟨0, 0, 10, 10⟩ : Box)] [0]).x2 ∧
    ([(⟨0, 0, 10, 10⟩ : Box)].getD 0 default).y2 ≤
      (groupBox [(⟨0, 0, 10, 10⟩ : Box)] [0]).y2 ∧
    (((pyCrop (groupBox [(⟨0, 0, 10, 10⟩ : Box)] [0])).x1 : ℤ) : ℚ) ≤
      ([(⟨0, 0, 10, 10⟩ : Box)].getD 0 default).x1 ∧
    (((pyCrop (groupBox [(⟨0, 0, 10, 10⟩ : Box)] [0])).y1 : ℤ) : ℚ) ≤
      ([(⟨0, 0, 10, 10⟩ : Box)].getD 0 default).y1 ∧
    ([(⟨0, 0, 10, 10⟩ : Box)].getD 0 default).x2 <
      (((pyCrop (groupBox [(⟨0, 0, 10, 10⟩ : Box)] [0])).x2 : ℤ) : ℚ) + 1 ∧
    ([(⟨0, 0, 10, 10⟩ : Box)].getD 0 default).y2 <
      (((pyCrop (groupBox [(⟨0, 0, 10, 10⟩ : Box)] [0])).y2 : ℤ) : ℚ) + 1 :=
  merged_box_union_and_crop_bounds [(⟨0, 0, 10, 10⟩ : Box)] [0] 0
    (by decide) (by decide) (by decide)

/-- Counterexample to C2 as stated: with a single figure box whose `x2` is
fractional (`21/2`), the crop rectangle truncates to `x2 = 10 < 21/2`, so
the crop does not fully contain the member box. -/
theorem crop_containment_cex :
    ([0] ∈ mergeGroups [(⟨0, 0, mkRat 21 2, 10⟩ : Box)]) ∧
    (0 ∈ ([0] : List ℕ)) ∧
    pyCrop (groupBox [(⟨0, 0, mkRat 21 2, 10⟩ : Box)] [0]) = ⟨0, 0, 10, 10⟩ ∧
    ¬ (([(⟨0, 0, mkRat 21 2, 10⟩ : Box)].getD 0 default).x2 ≤
        (((pyCrop (groupBox [(⟨0, 0, mkRat 21 2, 10⟩ : Box)] [0])).x2 : ℤ) : ℚ)) := by
  decide

/-! ### Claim C4: sequential identifier assignment -/

/-- The page number (1-based) expected for each figure, in visitation
order: pages ascending, figures within a page in their list order. -/
def expectedPages {α : Type} : ℕ → List (List α) → List ℕ
  | _, [] => []
  | pg, figs :: rest =>
    List.replicate figs.length (pg + 1) ++ expectedPages (pg + 1) rest

theorem pageMetaGo_fst {α : Type} (figs : List α) :
    ∀ c pg, (pageMetaGo c pg figs).map Prod.fst = List.range' c figs.length := by
  induction figs with
  | nil => intro c pg; rfl
  | cons x fs ih =>
    intro c pg
    simp only [pageMetaGo, List.map_cons, List.length_cons, List.range'_succ]
    rw [ih (c + 1) pg]

theorem pageMetaGo_snd {α : Type} (figs : List α) :
    ∀ c pg, (pageMetaGo c pg figs).map Prod.snd =
      List.replicate figs.length pg := by
  induction figs with
  | nil => intro c pg; rfl
  | cons x fs ih =>
    intro c pg
    simp only [pageMetaGo, List.map_cons, List.length_cons, List.replicate_succ]
    rw [ih (c + 1) pg]

theorem pageMetaGo_length {α : Type} (figs : List α) :
    ∀ c pg, (pageMetaGo c pg figs).length = figs.length := by
  induction figs with
  | nil => intro c pg; rfl
  | cons x fs ih =>
    intro c pg
    simp only [pageMetaGo, List.length_cons]
    rw [ih (c + 1) pg]

theorem docMetaGo_fst {α : Type} :
    ∀ (s : List (List α)) (c pg : ℕ),
      (docMetaGo c pg s).map Prod.fst =
        List.range' c ((s.map List.length).sum) := by
  intro s
  induction s with
  | nil => intro c pg; rfl
  | cons figs rest ih =>
    intro c pg
    simp only [docMetaGo, List.map_append, List.map_cons, List.sum_cons]
    rw [pageMetaGo_fst, ih (c + figs.length) (pg + 1)]
    have := List.range'_append c figs.length ((rest.map List.length).sum) 1
    rw [Nat.one_mul] at this
    rw [this, Nat.add_comm ((rest.map List.length).sum) figs.length]

theorem docMetaGo_snd {α : Type} :
    ∀ (s : List (List α)) (c pg : ℕ),
      (docMetaGo c pg s).map Prod.snd = expectedPages pg s := by
  intro s
  induction s with
  | nil => intro c pg; rfl
  | cons figs rest ih =>
    intro c pg
    simp only [docMetaGo, List.map_append, expectedPages]
    rw [pageMetaGo_snd, ih (c + figs.length) (pg + 1)]

theorem docMetaGo_length {α : Type} :
    ∀ (s : List (List α)) (c pg : ℕ),
      (docMetaGo c pg s).length = (s.map List.length).sum := by
  intro s
  induction s with
  | nil => intro c pg; rfl
  | cons figs rest ih =>
    intro c pg
    simp only [docMetaGo, List.length_append, List.map_cons, List.sum_cons]
    rw [pageMetaGo_length, ih (c + figs.length) (pg + 1)]

/-- C4: `log_diagram_snippets` visits pages in ascending order and, within
each page, the already-ordered diagrams, assigning figure identifiers
`1, 2, …, N` in that visitation order with no identifier repeated or
skipped (`N` = total number of Merged Diagrams). -/
theorem figure_ids_sequential {α : Type} (s : List (List α)) :
    (log_diagram_snippets s).map Prod.fst =
      List.range' 1 ((s.map List.length).sum) ∧
    (log_diagram_snippets s).map Prod.snd = expectedPages 0 s ∧
    (log_diagram_snippets s).length = (s.map List.length).sum :=
  ⟨docMetaGo_fst s 1 0, docMetaGo_snd s 1 0, docMetaGo_length s 1 0⟩

/-! ### Claim C5: per-page detector-failure recovery -/

theorem extractDoc_loop (thr : ℚ) :
    ∀ (pages : List (Except String (List Det)))
      (acc1 : List (List (ℚ × Box × CropBox))) (acc2 : List String),
      pages.foldl
        (fun acc pg =>
          match pg with
          | Except.ok dets => (acc.1 ++ [pageFigs dets thr], acc.2)
          | Except.error e => (acc.1 ++ [[]], acc.2 ++ [e]))
        (acc1, acc2) =
      (acc1 ++ pages.map (fun pg =>
          match pg with
          | Except.ok dets => pageFigs dets thr
          | Except.error _ => []),
        acc2 ++ pages.filterMap (fun pg =>
          match pg with
          | Except.ok _ => none
          | Except.error e => some e)) := by
  intro pages
  induction pages with
  | nil => intro acc1 acc2; simp
  | cons pg rest ih =>
    intro acc1 acc2
    cases pg with
    | ok dets =>
      simp only [List.foldl_cons, List.map_cons, List.filterMap_cons]
      rw [ih]
      simp [List.append_assoc]
    | error e =>
      simp only [List.foldl_cons, List.map_cons, List.filterMap_cons]
      rw [ih]
      simp [List.append_assoc]

theorem extractDoc_eq (pages : List (Except String (List Det))) (thr : ℚ) :
    extractDoc pages thr =
      (pages.map (fun pg =>
          match pg with
          | Except.ok dets => pageFigs dets thr
          | Except.error _ => []),
        pages.filterMap (fun pg =>
          match pg with
          | Except.ok _ => none
          | Except.error e => some e)) := by
  unfold extractDoc
  rw [extractDoc_loop thr pages [] []]
  simp

/-- C5: if the detector fails on one page, that page contributes an empty
Merged-Diagram list, the failure is surfaced as a warning, and every other
page (before or after it) is still processed normally — one page's failure
never aborts the document. -/
theorem page_failure_recovered (pages : List (Except String (List Det)))
    (thr : ℚ) (k : ℕ) (e : String)
    (hk : pages[k]? = some (Except.error e)) :
    (extractDoc pages thr).1[k]? = some [] ∧
    (extractDoc pages thr).1.length = pages.length ∧
    e ∈ (extractDoc pages thr).2 ∧
    (∀ (m : ℕ) (dets : List Det), pages[m]? = some (Except.ok dets) →
      (extractDoc pages thr).1[m]? = some (pageFigs dets thr)) := by
  rw [extractDoc_eq]
  refine ⟨?_, by simp, ?_, ?_⟩
  · rw [List.getElem?_map, hk]
    rfl
  · rw [List.mem_filterMap]
    obtain ⟨hlt, heq⟩ := List.getElem?_eq_some.mp hk
    exact ⟨Except.error e, heq ▸ List.getElem_mem hlt, rfl⟩
  · intro m dets hm
    rw [List.getElem?_map, hm]
    rfl

/-- Witness for C5: a one-page document whose only page fails. -/
theorem page_failure_recovered_witness :
    (extractDoc [Except.error "model error"] 0).1[0]? = some [] ∧
    (extractDoc [Except.error "model error"] 0).1.length =
      ([Except.error "model error"] : List (Except String (List Det))).length ∧
    "model error" ∈ (extractDoc [Except.error "model error"] 0).2 ∧
    (∀ (m : ℕ) (dets : List Det),
      ([Except.error "model error"] : List (Except String (List Det)))[m]? =
        some (Except.ok dets) →
      (extractDoc [Except.error "model error"] 0).1[m]? =
        some (pageFigs dets 0)) :=
  page_failure_recovered [Except.error "model error"] 0 0 "model error" rfl

/-! ### Claim C9: determinism of the pipeline -/

/-- C9: the pipeline is a pure function of the rasterized pages' detector
outputs and the thresholds: byte-identical inputs produce identical Merge
Groups, crop boundaries, warnings and identifier assignments. -/
theorem pipeline_deterministic (pages1 pages2 : List (Except String (List Det)))
    (thr1 thr2 : ℚ) (hp : pages1 = pages2) (ht : thr1 = thr2) :
    fullPipeline pages1 thr1 = fullPipeline pages2 thr2 := by
  subst hp
  subst ht
  rfl

/-- Witness for C9 at a concrete document. -/
theorem pipeline_deterministic_witness :
    fullPipeline [Except.error "x"] 0 = fullPipeline [Except.error "x"] 0 :=
  pipeline_deterministic [Except.error "x"] [Except.error "x"] 0 0 rfl rfl

/-! ### Properties of the greedy NMS -/

theorem nmsGo_sub (boxes : List Box) (thr : ℚ) :
    ∀ (fuel : ℕ) (l : List ℕ) (x : ℕ), x ∈ nmsGo boxes thr fuel l → x ∈ l := by
  intro fuel
  induction fuel with
  | zero => intro l x hx; cases hx
  | succ f ih =>
    intro l x hx
    cases l with
    | nil => cases hx
    | cons i rest =>
      rcases List.mem_cons.mp hx with rfl | hx
      · exact List.mem_cons_self _ _
      · exact List.mem_cons_of_mem i (List.mem_of_mem_filter (ih _ x hx))

theorem nmsGo_keeps_unsuppressable (boxes : List Box) (thr : ℚ) (i : ℕ)
    (hnever : ∀ k, ¬ (thr < iou (boxes.getD k default) (boxes.getD i default))) :
    ∀ (fuel : ℕ) (l : List ℕ), l.length ≤ fuel → i ∈ l →
      i ∈ nmsGo boxes thr fuel l := by
  intro fuel
  induction fuel with
  | zero =>
    intro l hlen hmem
    rw [List.length_eq_zero.mp (Nat.le_zero.mp hlen)] at hmem
    cases hmem
  | succ f ih =>
    intro l hlen hmem
    cases l with
    | nil => cases hmem
    | cons k rest =>
      rcases List.mem_cons.mp hmem with rfl | hmem
      · exact List.mem_cons_self _ _
      · refine List.mem_cons_of_mem k (ih _ ?_ ?_)
        · refine le_trans (List.length_filter_le _ _) ?_
          simpa using hlen
        · refine List.mem_filter.mpr ⟨hmem, ?_⟩
          simp only [Bool.not_eq_true']
          exact decide_eq_false (hnever k)

theorem nmsGo_suppresses (boxes : List Box) (thr : ℚ) :
    ∀ (fuel : ℕ) (l : List ℕ) (i j : ℕ), l.Nodup → l.length ≤ fuel →
      (∃ l1 l2, l = l1 ++ j :: l2 ∧ i ∈ l2) →
      (thr < iou (boxes.getD j default) (boxes.getD i default)) →
      j ∈ nmsGo boxes thr fuel l →
      i ∉ nmsGo boxes thr fuel l := by
  intro fuel
  induction fuel with
  | zero =>
    intro l i j _ _ _ _ hj
    cases hj
  | succ f ih =>
    intro l i j hnd hlen hsplit hiou hj
    cases l with
    | nil =>
      cases hj
    | cons k rest =>
      obtain ⟨l1, l2, hsp, hil2⟩ := hsplit
      have hflen : (rest.filter fun x =>
          !(decide (thr < iou (boxes.getD k default) (boxes.getD x default)))).length ≤ f := by
        refine le_trans (List.length_filter_le _ _) ?_
        simpa using hlen
      by_cases hkj : k = j
      · have hl1 : l1 = [] := by
          cases l1 with
          | nil => rfl
          | cons a l1t =>
            exfalso
            have htail : rest = l1t ++ j :: l2 := by
              have := congrArg List.tail hsp
              simpa using this
            refine (List.nodup_cons.mp hnd).1 ?_
            rw [htail, hkj]
            exact List.mem_append_right _ (List.mem_cons_self _ _)
        subst hl1
        have hrest : rest = l2 := by
          have := congrArg List.tail hsp
          simpa using this
        have hik : i ≠ k := by
          intro h
          refine (List.nodup_cons.mp hnd).1 ?_
          rw [hrest]
          exact h ▸ hil2
        intro hikept
        rcases List.mem_cons.mp hikept with h | h
        · exact hik h
        · have hifilter := nmsGo_sub boxes thr f _ i h
          have hpred := (List.mem_filter.mp hifilter).2
          rw [Bool.not_eq_true'] at hpred
          have hiouk : thr < iou (boxes.getD k default) (boxes.getD i default) := by
            rw [hkj]
            exact hiou
          exact absurd hiouk (of_decide_eq_false hpred)
      · have hl1 : ∃ l1t, l1 = k :: l1t := by
          cases l1 with
          | nil =>
            exfalso
            refine hkj ?_
            have := congrArg (fun t => t.headD 0) hsp
            simpa using this
          | cons a l1t =>
            have : a = k := by
              have := congrArg (fun t => t.headD 0) hsp
              simpa using this.symm
            exact ⟨l1t, by rw [this]⟩
        obtain ⟨l1t, hl1e⟩ := hl1
        subst hl1e
        have hrest : rest = l1t ++ j :: l2 := by
          have := congrArg List.tail hsp
          simpa using this
        have hjne : j ∈ nmsGo boxes thr f (rest.filter fun x =>
            !(decide (thr < iou (boxes.getD k default) (boxes.getD x default)))) := by
          rcases List.mem_cons.mp hj with h | h
          · exact absurd h.symm hkj
          · exact h
        have hjfilter := nmsGo_sub boxes thr f _ j hjne
        have hjpred := (List.mem_filter.mp hjfilter).2
        intro hikept
        have hik : i ≠ k := by
          intro h
          subst h
          refine (List.nodup_cons.mp hnd).1 ?_
          rw [hrest]
          exact List.mem_append_right _ (List.mem_cons_of_mem j hil2)
        have hine : i ∈ nmsGo boxes thr f (rest.filter fun x =>
            !(decide (thr < iou (boxes.getD k default) (boxes.getD x default)))) := by
          rcases List.mem_cons.mp hikept with h | h
          · exact absurd h hik
          · exact h
        have hifilter := nmsGo_sub boxes thr f _ i hine
        have hipred := (List.mem_filter.mp hifilter).2
        refine ih _ i j ?_ hflen ?_ hiou hjne hine
        · exact (List.nodup_cons.mp hnd).2.filter _
        · refine ⟨l1t.filter (fun x =>
              !(decide (thr < iou (boxes.getD k default) (boxes.getD x default)))),
            l2.filter (fun x =>
              !(decide (thr < iou (boxes.getD k default) (boxes.getD x default)))), ?_, ?_⟩
          · rw [hrest, List.filter_append, List.filter_cons, if_pos hjpred]
          · exact List.mem_filter.mpr ⟨hil2, hipred⟩

theorem nmsOrder_perm (scores : List ℚ) :
    (nmsOrder scores).Perm (List.range scores.length) :=
  sortLe_perm _ _

theorem mem_nmsOrder {scores : List ℚ} {x : ℕ} :
    x ∈ nmsOrder scores ↔ x < scores.length := by
  rw [(nmsOrder_perm scores).mem_iff, List.mem_range]

theorem nmsOrder_nodup (scores : List ℚ) : (nmsOrder scores).Nodup :=
  ((nmsOrder_perm scores).nodup_iff).mpr (List.nodup_range _)

theorem nmsOrder_sorted (scores : List ℚ) :
    (nmsOrder scores).Pairwise
      (fun i j => decide (scores.getD j 0 ≤ scores.getD i 0) = true) := by
  refine sortLe_sorted ?_ ?_ _
  · intro a b
    rcases le_total (scores.getD b 0) (scores.getD a 0) with h | h
    · exact Or.inl (decide_eq_true h)
    · exact Or.inr (decide_eq_true h)
  · intro a b c h1 h2
    exact decide_eq_true (le_trans (of_decide_eq_true h2) (of_decide_eq_true h1))

/-- A strictly higher-scored index appears strictly earlier in the NMS
processing order. -/
theorem nmsOrder_split {scores : List ℚ} {i j : ℕ}
    (hi : i < scores.length) (hj : j < scores.length)
    (hs : scores.getD i 0 < scores.getD j 0) :
    ∃ l1 l2, nmsOrder scores = l1 ++ j :: l2 ∧ i ∈ l2 := by
  have hjmem : j ∈ nmsOrder scores := mem_nmsOrder.mpr hj
  have himem : i ∈ nmsOrder scores := mem_nmsOrder.mpr hi
  obtain ⟨l1, l2, hsp⟩ := List.append_of_mem hjmem
  refine ⟨l1, l2, hsp, ?_⟩
  have hij : i ≠ j := by
    intro h
    subst h
    exact lt_irrefl _ hs
  rw [hsp] at himem
  rcases List.mem_append.mp himem with h | h
  · exfalso
    have hpair := nmsOrder_sorted scores
    rw [hsp, List.pairwise_append] at hpair
    have := hpair.2.2 i h j (List.mem_cons_self _ _)
    exact absurd (of_decide_eq_true this) (not_le.mpr hs)
  · rcases List.mem_cons.mp h with h | h
    · exact absurd h hij
    · exact h

/-! ### Claims C10 and C6 -/

theorem getD_map_box {dets : List Det} {j : ℕ} (hj : j < dets.length) :
    (dets.map Det.box).getD j default = (dets.getD j default).box := by
  rw [List.getD_eq_getElem _ _ (by simpa using hj), List.getD_eq_getElem _ _ hj,
    List.getElem_map]

theorem getD_map_score {dets : List Det} {j : ℕ} (hj : j < dets.length) :
    (dets.map Det.score).getD j 0 = (dets.getD j default).score := by
  rw [List.getD_eq_getElem _ _ (by simpa using hj), List.getD_eq_getElem _ _ hj,
    List.getElem_map]

/-- C10: NMS is applied class-agnostically.  All detections of a page are
suppressed jointly: a lower-confidence box `i` is discarded whenever some
kept box `j` of strictly higher confidence — of any class — has IoU with it
above the threshold, so a figure box may be removed before the merger sees
it; and the kept index set does not depend on the class labels at all. -/
theorem nms_class_agnostic_suppression (dets : List Det) (thr : ℚ) (i j : ℕ)
    (hi : i < dets.length) (hj : j < dets.length)
    (hs : (dets.getD i default).score < (dets.getD j default).score)
    (hkeep : j ∈ pageKept dets thr)
    (hiou : thr < iou ((dets.getD j default).box) ((dets.getD i default).box)) :
    i ∉ pageKept dets thr ∧
    (∀ f : ℕ → ℕ,
      pageKept (dets.map fun d => ⟨d.box, f d.cls, d.score⟩) thr =
        pageKept dets thr) := by
  constructor
  · have hi' : i < (dets.map Det.score).length := by simpa using hi
    have hj' : j < (dets.map Det.score).length := by simpa using hj
    have hs' : (dets.map Det.score).getD i 0 < (dets.map Det.score).getD j 0 := by
      rw [getD_map_score hi, getD_map_score hj]
      exact hs
    obtain ⟨l1, l2, hsp, hil2⟩ := nmsOrder_split hi' hj' hs'
    have hiou' : thr < iou ((dets.map Det.box).getD j default)
        ((dets.map Det.box).getD i default) := by
      rw [getD_map_box hj, getD_map_box hi]
      exact hiou
    exact nmsGo_suppresses (dets.map Det.box) thr
      (nmsOrder (dets.map Det.score)).length (nmsOrder (dets.map Det.score))
      i j (nmsOrder_nodup _) (le_refl _) ⟨l1, l2, hsp, hil2⟩ hiou' hkeep
  · intro f
    have hbox : ((dets.map fun d => (⟨d.box, f d.cls, d.score⟩ : Det)).map
        Det.box) = dets.map Det.box := by
      rw [List.map_map]
      rfl
    have hscore : ((dets.map fun d => (⟨d.box, f d.cls, d.score⟩ : Det)).map
        Det.score) = dets.map Det.score := by
      rw [List.map_map]
      rfl
    unfold pageKept
    rw [hbox, hscore]

/-- Witness for C10: two same-box detections of different classes; the
lower-confidence figure box is suppressed by the higher-confidence table
box. -/
theorem nms_class_agnostic_suppression_witness :
    1 ∉ pageKept [(⟨⟨0, 0, 2, 2⟩, 5, 2⟩ : Det), ⟨⟨0, 0, 2, 2⟩, 3, 1⟩] 0 ∧
    (∀ f : ℕ → ℕ,
      pageKept (([(⟨⟨0, 0, 2, 2⟩, 5, 2⟩ : Det), ⟨⟨0, 0, 2, 2⟩, 3, 1⟩]).map
        fun d => ⟨d.box, f d.cls, d.score⟩) 0 =
        pageKept [(⟨⟨0, 0, 2, 2⟩, 5, 2⟩ : Det), ⟨⟨0, 0, 2, 2⟩, 3, 1⟩] 0) :=
  nms_class_agnostic_suppression _ 0 1 0 (by decide) (by decide) (by decide)
    (by
      unfold pageKept nmsKeep
      rw [show nmsOrder (([(⟨⟨0, 0, 2, 2⟩, 5, 2⟩ : Det),
          ⟨⟨0, 0, 2, 2⟩, 3, 1⟩]).map Det.score) = [0, 1] from by decide]
      exact List.mem_cons_self 0 _)
    (by norm_num [iou, boxArea])

/-- A box with non-positive width or height has zero intersection with
every box, hence IoU 0. -/
theorem iou_degenerate_right (a b : Box)
    (hdeg : b.x2 ≤ b.x1 ∨ b.y2 ≤ b.y1) : iou a b = 0 := by
  unfold iou
  rcases hdeg with h | h
  · have hw : max 0 (min a.x2 b.x2 - max a.x1 b.x1) = 0 := by
      refine max_eq_left ?_
      have h1 : min a.x2 b.x2 ≤ b.x2 := min_le_right _ _
      have h2 : b.x1 ≤ max a.x1 b.x1 := le_max_right _ _
      linarith
    rw [hw, zero_mul, zero_div]
  · have hh : max 0 (min a.y2 b.y2 - max a.y1 b.y1) = 0 := by
      refine max_eq_left ?_
      have h1 : min a.y2 b.y2 ≤ b.y2 := min_le_right _ _
      have h2 : b.y1 ≤ max a.y1 b.y1 := le_max_right _ _
      linarith
    rw [hh, mul_zero, zero_div]

/-- C6 (amended): a detected region with non-positive area is NOT dropped:
its IoU with every box is 0, so (for a nonnegative threshold) NMS always
keeps it, and if it is figure-class its box is passed on to the merger. -/
theorem degenerate_box_not_dropped (dets : List Det) (thr : ℚ) (i : ℕ)
    (hthr : 0 ≤ thr) (hi : i < dets.length)
    (hdeg : (dets.getD i default).box.x2 ≤ (dets.getD i default).box.x1 ∨
      (dets.getD i default).box.y2 ≤ (dets.getD i default).box.y1) :
    i ∈ pageKept dets thr ∧
    ((dets.getD i default).cls = 3 →
      (dets.getD i default).box ∈ figBoxes dets thr) := by
  have hkeep : i ∈ pageKept dets thr := by
    refine nmsGo_keeps_unsuppressable (dets.map Det.box) thr i ?_
      (nmsOrder (dets.map Det.score)).length (nmsOrder (dets.map Det.score))
      (le_refl _) ?_
    · intro k
      have hzero : iou ((dets.map Det.box).getD k default)
          ((dets.map Det.box).getD i default) = 0 := by
        refine iou_degenerate_right _ _ ?_
        rw [getD_map_box hi]
        exact hdeg
      rw [hzero]
      exact not_lt.mpr hthr
    · exact mem_nmsOrder.mpr (by simpa using hi)
  refine ⟨hkeep, ?_⟩
  intro hcls
  obtain ⟨p, hp, hpe⟩ := List.getElem_of_mem hkeep
  have hplen : p < (keptCls dets thr).length := by
    simpa [keptCls] using hp
  have hclsp : (keptCls dets thr).getD p 0 = 3 := by
    rw [List.getD_eq_getElem _ _ hplen]
    unfold keptCls
    rw [List.getElem_map]
    rw [hpe]
    exact hcls
  have hpfig : p ∈ figIdxList dets thr := by
    rw [figIdxList, List.mem_filter]
    exact ⟨List.mem_range.mpr hplen, decide_eq_true hclsp⟩
  rw [figBoxes]
  refine List.mem_map.mpr ⟨p, hpfig, ?_⟩
  have hbplen : p < (keptBoxes dets thr).length := by
    simpa [keptBoxes] using hp
  rw [List.getD_eq_getElem _ _ hbplen]
  unfold keptBoxes
  rw [List.getElem_map, hpe]

/-- Witness for the amended C6: a zero-width figure-class detection. -/
theorem degenerate_box_not_dropped_witness :
    0 ∈ pageKept [(⟨⟨0, 0, 0, 10⟩, 3, 1⟩ : Det)] 0 ∧
    (([(⟨⟨0, 0, 0, 10⟩, 3, 1⟩ : Det)].getD 0 default).cls = 3 →
      ([(⟨⟨0, 0, 0, 10⟩, 3, 1⟩ : Det)].getD 0 default).box ∈
        figBoxes [(⟨⟨0, 0, 0, 10⟩, 3, 1⟩ : Det)] 0) :=
  degenerate_box_not_dropped _ 0 0 (le_refl 0) (by decide) (by decide)

/-- Counterexample to C6 as stated: a zero-width figure-class region is not
dropped at the NMS/merge boundary — it reaches the merger and yields a
(degenerate) Merged Diagram, so the page output is nonempty. -/
theorem degenerate_box_participates_cex :
    figBoxes [(⟨⟨0, 0, 0, 10⟩, 3, 1⟩ : Det)] 0 = [⟨0, 0, 0, 10⟩] ∧
    pageFigs [(⟨⟨0, 0, 0, 10⟩, 3, 1⟩ : Det)] 0 ≠ [] := by
  decide
